import Mathlib

/-!
# A verification development for the scrumulator simulation engine

This file gives a shallow embedding of the core of `scrumulator.py` — the
work-item state machine, the capability/role policy layer, the shared
environment (exclusive lock plus logon set), the per-hour simulation phases —
and proves properties of that embedding.

Conventions of the embedding:
* Python objects that are mutated in place (user stories, capabilities,
  members of technical staff) become immutable records addressed by their
  position (`Nat` index) in the lists that own them; object identity in the
  source corresponds to index equality here.
* Statuses are kept as the strings the source uses.
* Python code that can raise (`logon`/`logoff` on a locked system, a missing
  dictionary key in `progress`, a missing role name) returns
  `Except String _`; a raised exception aborts the simulated run, so a run
  state only exists along the `.ok` path.
* The class hierarchy Developer/Ops/QA over `Capability` becomes a `Role`
  tag together with role-indexed policy functions.
-/

/-- Source line 33: `PICK_SMALLER_STORY_FIRST_POLICY = False`.
A process-wide constant; `False` means larger stories are picked first. -/
def PICK_SMALLER_STORY_FIRST_POLICY : Bool := false

/-- The shared environment (`class System`, lines 35-62): a set of logged-on
user names and an availability flag.  The logon set is modelled as a
duplicate-free list; only membership, emptiness and removal are ever used. -/
structure System where
  logons : List String
  available : Bool
  deriving Repr, DecidableEq

/-- `System.setLock` (lines 41-44): locking makes the system unavailable and
clears every logon; unlocking makes it available again. -/
def System.setLock (sys : System) (lock : Bool) : System :=
  { available := !lock, logons := if lock then [] else sys.logons }

/-- `System.logon` (lines 46-50): add a user name to the logon set, or raise
`System down` if the environment is unavailable. -/
def System.logon (sys : System) (username : String) : Except String System :=
  if sys.available then
    .ok { sys with logons := if username ∈ sys.logons then sys.logons else sys.logons ++ [username] }
  else
    .error "System down"

/-- `System.logoff` (lines 52-56): remove a user name from the logon set;
raise `System down` if unavailable, and (as Python `set.remove` does) raise
`KeyError` if the name is not logged on. -/
def System.logoff (sys : System) (username : String) : Except String System :=
  if sys.available then
    if username ∈ sys.logons then .ok { sys with logons := sys.logons.erase username }
    else .error "KeyError"
  else
    .error "System down"

/-- `System.hasLogons` (lines 58-59). -/
def System.hasLogons (sys : System) : Bool := !sys.logons.isEmpty

/-- `System.isAvailable` (lines 61-62). -/
def System.isAvailable (sys : System) : Bool := sys.available

/-- `System.__init__` (lines 37-39): the environment starts available with no
logons. -/
def initialSystem : System := { logons := [], available := true }

/-- A user story (`class UserStory`, lines 74-122).  `remaining` is the
status-to-remaining-effort dictionary, kept as an association list;
`assignedTo` holds the index of the owning capability, if any. -/
structure UserStory where
  title : String
  points : Int
  status : String
  remaining : List (String × Int)
  assignedTo : Option Nat
  deriving Repr, DecidableEq

/-- Dictionary lookup on an association list (Python `d[k]` read). -/
def lookupAssoc (l : List (String × Int)) (k : String) : Option Int :=
  (l.find? (fun p => p.1 == k)).map Prod.snd

/-- Dictionary write on an association list (Python `d[k] = v` on a present
key; story work profiles have duplicate-free keys). -/
def setAssoc (l : List (String × Int)) (k : String) (v : Int) : List (String × Int) :=
  l.map (fun p => if p.1 == k then (p.1, v) else p)

/-- `UserStory.progress` (lines 114-119): subtract the work done from the
remaining-effort bucket of the current status (raising `KeyError` when the
profile has no bucket for it, as the Python dictionary access would); if the
result is `≤ 0` the story moves to `nextSt` and loses its assignee. -/
def UserStory.progress (s : UserStory) (workDone : Int) (nextSt : String) :
    Except String UserStory :=
  match lookupAssoc s.remaining s.status with
  | none => .error "KeyError"
  | some v =>
    let rem := setAssoc s.remaining s.status (v - workDone)
    if v - workDone ≤ 0 then
      .ok { s with remaining := rem, status := nextSt, assignedTo := none }
    else
      .ok { s with remaining := rem }

/-- `UserStory.pickMeBefore` (lines 121-122) generalised over the policy
constant: `(self._points < them._points) == policy`. -/
def pickMeBeforePolicy (policy : Bool) (s them : UserStory) : Bool :=
  decide (s.points < them.points) == policy

/-- `UserStory.pickMeBefore` as the source has it, with the process-wide
policy constant of line 33. -/
def UserStory.pickMeBefore (s them : UserStory) : Bool :=
  pickMeBeforePolicy PICK_SMALLER_STORY_FIRST_POLICY s them

/-- The role of a capability: the three concrete subclasses of `Capability`
(`Developer` line 283, `Ops` line 299, `QA` line 330). -/
inductive Role where
  | dev
  | ops
  | qa
  deriving Repr, DecidableEq

/-- `acceptStatus` of each subclass (lines 293-294, 311-312, 337-338). -/
def acceptStatus : Role → String → Bool
  | .dev, x => x == "active"
  | .ops, x => x == "resolved"
  | .qa, x => x == "deployed"

/-- `nextStatus` of each subclass (lines 296-297, 314-315, 340-341); note the
source ignores the argument in all three subclasses. -/
def nextStatus : Role → String → String
  | .dev, _ => "resolved"
  | .ops, _ => "deployed"
  | .qa, _ => "closed"

/-- `areResourcesAvailable` (base line 266-267, Ops lines 317-320, QA lines
343-344). -/
def areResourcesAvailable : Role → System → Bool
  | .dev, _ => true
  | .ops, sys => sys.isAvailable && !sys.hasLogons
  | .qa, sys => sys.isAvailable

/-- `reserveResources` (base line 269-270, Ops lines 322-324 take the lock,
QA lines 346-347 log on under the capability's name). -/
def reserveResources (role : Role) (name : String) (sys : System) :
    Except String System :=
  match role with
  | .dev => .ok sys
  | .ops => .ok (sys.setLock true)
  | .qa => sys.logon name

/-- `releaseResources` (base line 272-273, Ops lines 326-328 release the
lock, QA lines 349-350 log off). -/
def releaseResources (role : Role) (name : String) (sys : System) :
    Except String System :=
  match role with
  | .dev => .ok sys
  | .ops => .ok (sys.setLock false)
  | .qa => sys.logoff name

/-- A member of technical staff (`class MemberOfTechnicalStaff`, lines
165-182): a name and the busy marker, holding the index of the capability
currently occupying this person (the `_capabilities` back-list of the source
is write-only and is not modelled). -/
structure MemberOfTechnicalStaff where
  name : String
  busy : Option Nat
  deriving Repr, DecidableEq

/-- A capability (`class Capability`, lines 185-281) after construction:
its role tag, the index of its staff identity, productivity, weekday
availability, and the index of the story it is on, if any. -/
structure Capability where
  role : Role
  motsIdx : Nat
  productivity : Int
  available : List Nat
  onStory : Option Nat
  deriving Repr, DecidableEq

/-- The whole mutable state of a simulation: the backlog (`Backlog._stories`),
the team's capabilities (`Team._members`), the staff identities they point
at, and the shared environment. -/
structure SimState where
  backlog : List UserStory
  caps : List Capability
  motss : List MemberOfTechnicalStaff
  system : System
  deriving Repr, DecidableEq

/-- In-place mutation of one element of a list (no-op when out of range,
which never happens along `.ok` paths). -/
def modifyAt {α : Type} (l : List α) (i : Nat) (f : α → α) : List α :=
  match l[i]? with
  | none => l
  | some a => l.set i (f a)

/-- The candidate scan of `Capability.assignStoryFromBacklog` (lines
225-229) over an indexed backlog: `findStories` (lines 159-163) yields the
unassigned stories whose status the capability accepts, in backlog order;
for each, if resources are available, the candidate replaces the current
pick exactly when `pickMeBefore` says so. -/
def scanPickAux (role : Role) (sys : System) (pick : Option (Nat × UserStory)) :
    List (Nat × UserStory) → Option (Nat × UserStory)
  | [] => pick
  | (i, story) :: rest =>
    scanPickAux role sys
      (if story.assignedTo.isNone && acceptStatus role story.status then
        if areResourcesAvailable role sys then
          match pick with
          | none => some (i, story)
          | some p => if story.pickMeBefore p.2 then some (i, story) else pick
        else pick
      else pick) rest

/-- The scan of lines 225-229 starting from an empty pick. -/
def scanPick (role : Role) (sys : System) (backlog : List UserStory) :
    Option (Nat × UserStory) :=
  scanPickAux role sys none backlog.enum

/-- Statement vocabulary: a story is an acceptable, resource-eligible,
unassigned candidate for a role under a given system state (the three tests
of lines 226-227). -/
def isCandidate (role : Role) (sys : System) (s : UserStory) : Bool :=
  s.assignedTo.isNone && acceptStatus role s.status && areResourcesAvailable role sys

/-- `Capability.assignStoryFromBacklog` (lines 224-234): scan for a pick;
unless this is a dry run, reserve resources, put the capability on the story
(which also marks the staff identity busy with this capability, line 213),
and assign the story to the capability. -/
def assignStoryFromBacklog (capIdx : Nat) (st : SimState) (dryRun : Bool) :
    Except String (Option Nat × SimState) :=
  match st.caps[capIdx]? with
  | none => .error "missing capability"
  | some cap =>
    match scanPick cap.role st.system st.backlog with
    | none => .ok (none, st)
    | some pick =>
      if dryRun then .ok (some pick.1, st)
      else
        match st.motss[cap.motsIdx]? with
        | none => .error "missing staff identity"
        | some m =>
          match reserveResources cap.role m.name st.system with
          | .error e => .error e
          | .ok sys =>
            .ok (some pick.1,
              { backlog := modifyAt st.backlog pick.1 (fun s => { s with assignedTo := some capIdx }),
                caps := modifyAt st.caps capIdx (fun c => { c with onStory := some pick.1 }),
                motss := modifyAt st.motss cap.motsIdx (fun mm => { mm with busy := some capIdx }),
                system := sys })

/-- `Capability.grabNextStory` (lines 236-244): return the story already
held, if any; otherwise refuse if the staff identity is busy with another
capability; otherwise scan the backlog. -/
def grabNextStory (capIdx : Nat) (st : SimState) (dryRun : Bool) :
    Except String (Option Nat × SimState) :=
  match st.caps[capIdx]? with
  | none => .error "missing capability"
  | some cap =>
    match cap.onStory with
    | some s => .ok (some s, st)
    | none =>
      match st.motss[cap.motsIdx]? with
      | none => .error "missing staff identity"
      | some m =>
        if m.busy.isSome then .ok (none, st)
        else assignStoryFromBacklog capIdx st dryRun

/-- `relatedStories` — `()` in the base class (lines 246-247), and for Ops
(lines 306-309) every backlog story whose status Ops accepts; the
comprehension of line 251 then drops the main story itself (object identity,
hence index inequality here). -/
def relatedIndices (role : Role) (backlog : List UserStory) (mainIdx : Nat) :
    List Nat :=
  match role with
  | .ops =>
    ((backlog.enum.filter (fun p => acceptStatus .ops p.2.status)).map Prod.fst).filter
      (fun j => j != mainIdx)
  | _ => []

/-- The loop body of `Capability.progressOneHour` (lines 252-260) over the
list `[main_story, *related]`: progress each story by the capability's
productivity toward the role's next status (computed from the story's status
before the hour's work, line 253), and record in `done` whether every
progressed story ended at its next status. -/
def progressList (role : Role) (prod : Int) (l : List Nat) (st : SimState)
    (done : Bool) : Except String (SimState × Bool) :=
  match l with
  | [] => .ok (st, done)
  | i :: rest =>
    match st.backlog[i]? with
    | none => .error "missing story"
    | some story =>
      match story.progress prod (nextStatus role story.status) with
      | .error e => .error e
      | .ok story' =>
        progressList role prod rest { st with backlog := st.backlog.set i story' }
          (done && (story'.status == nextStatus role story.status))

/-- `Capability.progressOneHour` (lines 249-260): the related list is
materialised from the backlog as it stands at the start of the call, the
main story is excluded from it by identity, and the stories are progressed
in order starting with the main story. -/
def progressOneHour (capIdx mainIdx : Nat) (st : SimState) :
    Except String (SimState × Bool) :=
  match st.caps[capIdx]? with
  | none => .error "missing capability"
  | some cap =>
    progressList cap.role cap.productivity
      (mainIdx :: relatedIndices cap.role st.backlog mainIdx) st true

/-- `Capability.jobDone` (lines 262-264): leave the story (clearing the
staff identity's busy marker, line 213) and release the reserved
resources. -/
def jobDone (capIdx : Nat) (st : SimState) : Except String SimState :=
  match st.caps[capIdx]? with
  | none => .error "missing capability"
  | some cap =>
    match st.motss[cap.motsIdx]? with
    | none => .error "missing staff identity"
    | some m =>
      match releaseResources cap.role m.name st.system with
      | .error e => .error e
      | .ok sys =>
        .ok { backlog := st.backlog,
              caps := modifyAt st.caps capIdx (fun c => { c with onStory := none }),
              motss := modifyAt st.motss cap.motsIdx (fun mm => { mm with busy := none }),
              system := sys }

/-- `Assignment.endOfHour` (lines 376-378): release exactly when the hour's
progress reported the work as done. -/
def endOfHour (capIdx : Nat) (done : Bool) (st : SimState) :
    Except String SimState :=
  if done then jobDone capIdx st else .ok st

/-- One per-hour binding of a capability to the story it grabbed
(`class Assignment`, lines 353-378). -/
structure HourAssignment where
  capIdx : Nat
  storyIdx : Nat
  deriving Repr, DecidableEq

/-- The pick-up loop of `Scrumulation.scrumulateOneHour` (lines 449-458):
every capability, in team order, grabs a story (a dry run when the weekday
is outside its availability); any found story makes progress possible, and
available grabbers are collected as the hour's assignments. -/
def pickUpList (dow : Nat) (idxs : List Nat)
    (asgns : List HourAssignment) (pp : Bool) (st : SimState) :
    Except String (List HourAssignment × Bool × SimState) :=
  match idxs with
  | [] => .ok (asgns, pp, st)
  | c :: rest =>
    match st.caps[c]? with
    | none => .error "missing capability"
    | some cap =>
      match grabNextStory c st (!decide (dow ∈ cap.available)) with
      | .error e => .error e
      | .ok (story, st') =>
        match story with
        | none => pickUpList dow rest asgns pp st'
        | some i =>
          if decide (dow ∈ cap.available) then
            pickUpList dow rest (asgns ++ [⟨c, i⟩]) true st'
          else pickUpList dow rest asgns true st'

/-- The pick-up phase over the whole team. -/
def pickUpPhase (dow : Nat) (st : SimState) :
    Except String (List HourAssignment × Bool × SimState) :=
  pickUpList dow (List.range st.caps.length) [] false st

/-- The progress loop of lines 459-460: each assignment progresses its story
for one hour and records whether it finished. -/
def progressAssignments (asgns : List HourAssignment)
    (ds : List (HourAssignment × Bool)) (st : SimState) :
    Except String (List (HourAssignment × Bool) × SimState) :=
  match asgns with
  | [] => .ok (ds, st)
  | a :: rest =>
    match progressOneHour a.capIdx a.storyIdx st with
    | .error e => .error e
    | .ok (st', d) => progressAssignments rest (ds ++ [(a, d)]) st'

/-- The release loop of lines 461-462. -/
def releaseAssignments (ds : List (HourAssignment × Bool)) (st : SimState) :
    Except String SimState :=
  match ds with
  | [] => .ok st
  | d :: rest =>
    match endOfHour d.1.capIdx d.2 st with
    | .error e => .error e
    | .ok st' => releaseAssignments rest st'

/-- `Scrumulation.scrumulateOneHour` (lines 448-463): pick-up phase, then
progress phase, then release phase; returns whether progress was possible
anywhere (by anyone, available on the day or not). -/
def scrumulateOneHour (dow : Nat) (st : SimState) :
    Except String (Bool × SimState) :=
  match pickUpPhase dow st with
  | .error e => .error e
  | .ok (asgns, pp, st1) =>
    match progressAssignments asgns [] st1 with
    | .error e => .error e
    | .ok (ds, st2) =>
      match releaseAssignments ds st2 with
      | .error e => .error e
      | .ok st3 => .ok (pp, st3)

/-- A run of consecutive simulated hours with the given weekdays
(`Scrumulation.scrumlate`, lines 465-476, runs hours with the weekday of
the current day; any run it performs is an instance of this for some list
of weekdays, since it stops on the first hour without possible progress). -/
def runHours (dows : List Nat) (st : SimState) : Except String SimState :=
  match dows with
  | [] => .ok st
  | d :: rest =>
    match scrumulateOneHour d st with
    | .error e => .error e
    | .ok (_, st') => runHours rest st'

/-- The position of a status in the documented lifecycle order
`active → resolved → deployed → closed` (section comment, line 13). -/
def statusIdx : String → Nat
  | "resolved" => 1
  | "deployed" => 2
  | "closed" => 3
  | _ => 0

/-- Statement vocabulary: the constant value each role's `nextStatus`
returns. -/
def roleTarget : Role → String
  | .dev => "resolved"
  | .ops => "deployed"
  | .qa => "closed"

/-- Statement vocabulary: the single status each role's `acceptStatus`
accepts. -/
def acceptSrc : Role → String
  | .dev => "active"
  | .ops => "resolved"
  | .qa => "deployed"

/-- `Capability.__init__` (lines 189-200): a staff identity is created from
`name` when one is supplied (a non-empty string, by Python truthiness); the
`Invalid initial parameters` check fires exactly when that leaves `_mots`
unset; only then is the identity replaced by the referenced capability's.
`freshMotsIdx` is where a newly allocated staff identity would live. -/
def capabilityInit (role : Role) (name : Option String)
    (capability : Option Capability) (productivity : Int)
    (available : List Nat) (freshMotsIdx : Nat) : Except String Capability :=
  let hasName := match name with
    | some n => !n.isEmpty
    | none => false
  if !hasName then .error "Invalid initial parameters"
  else
    let motsIdx := match capability with
      | some c => c.motsIdx
      | none => freshMotsIdx
    .ok { role := role, motsIdx := motsIdx, productivity := productivity,
          available := available, onStory := none }

/-- One record of the team feed (`jmember`): the identity name, the role
name, and the optional `Productivity` and `Available` fields. -/
structure JMember where
  id : String
  role : String
  productivityField : Option Int
  availableField : Option (List Nat)
  deriving Repr, DecidableEq

/-- The role-name dispatch table of lines 392-396; an unknown role name is a
Python `KeyError`. -/
def parseRole : String → Except String Role
  | "Developer" => .ok .dev
  | "QA" => .ok .qa
  | "Ops" => .ok .ops
  | _ => .error "KeyError"

/-- The state of `class MemberFactory` (lines 380-408): the members built so
far, the staff identities they share, and the id-to-first-capability map. -/
structure MemberFactorySt where
  members : List Capability
  motss : List MemberOfTechnicalStaff
  capabilities : List (String × Capability)
  deriving Repr, DecidableEq

/-- The empty factory (lines 382-384). -/
def emptyMemberFactory : MemberFactorySt :=
  { members := [], motss := [], capabilities := [] }

/-- `MemberFactory.new` (lines 386-400).  Note that the source computes
`productivity` from the optional `Productivity` field (line 389) but then
passes the literal `1` to the constructor call (line 396); the embedding
reproduces that call faithfully, keeping the computed value as the unused
local it is in the source. -/
def MemberFactory.new (st : MemberFactorySt) (jm : JMember) :
    Except String MemberFactorySt :=
  let id := jm.id
  let capability := (st.capabilities.find? (fun p => p.1 == id)).map Prod.snd
  let _productivity := match jm.productivityField with
    | some p => p
    | none => 1
  let available := match jm.availableField with
    | some a => a
    | none => [1, 2, 3, 4, 5]
  match parseRole jm.role with
  | .error e => .error e
  | .ok role =>
    match capabilityInit role (some id) capability 1 available st.motss.length with
    | .error e => .error e
    | .ok member =>
      let motss := match capability with
        | some _ => st.motss
        | none => st.motss ++ [{ name := id, busy := none }]
      let capabilities := match capability with
        | some _ => st.capabilities
        | none => st.capabilities ++ [(id, member)]
      .ok { members := st.members ++ [member], motss := motss,
            capabilities := capabilities }

/-- The operations through which the simulation ever touches the shared
environment: `setLock` (Ops reserve/release), `logon` and `logoff` (QA
reserve/release). -/
inductive SysOp where
  | setLock (lock : Bool)
  | logon (username : String)
  | logoff (username : String)

/-- Apply one environment operation; `logon`/`logoff` can raise. -/
def applyOp (sys : System) : SysOp → Except String System
  | .setLock b => .ok (sys.setLock b)
  | .logon u => sys.logon u
  | .logoff u => sys.logoff u

/-- The environment states reachable from the start of a run by successful
operations (a raised exception aborts the run, so no later state exists). -/
inductive ReachableSystem : System → Prop where
  | init : ReachableSystem initialSystem
  | step {s s' : System} {op : SysOp} :
      ReachableSystem s → applyOp s op = .ok s' → ReachableSystem s'

/-- The story held by capability `c` (if any) exists and is either in the
holding role's accepted status and assigned to the holder, or already at the
role's target status (only an Ops capability can linger in that state, when
a related story kept its hour from being done). -/
def HeldFit (st : SimState) (c : Nat) (cap : Capability) : Prop :=
  ∀ i : Nat, cap.onStory = some i →
    ∃ s : UserStory, st.backlog[i]? = some s ∧
      ((cap.role = .dev ∧ s.status = "active" ∧ s.assignedTo = some c) ∨
       (cap.role = .qa ∧ s.status = "deployed" ∧ s.assignedTo = some c) ∨
       (cap.role = .ops ∧
         ((s.status = "resolved" ∧ s.assignedTo = some c) ∨ s.status = "deployed")))

/-- The structural part of the hour-boundary invariant: an Ops holder
implies the environment is locked; no two capabilities hold the same story;
at most one Ops capability is on a story. -/
structure CapsGood (st : SimState) : Prop where
  ops_locked : ∀ (c : Nat) (cap : Capability), st.caps[c]? = some cap →
    cap.role = .ops → cap.onStory.isSome → st.system.available = false
  distinct_stories : ∀ (c1 c2 : Nat) (cap1 cap2 : Capability) (i : Nat), c1 ≠ c2 →
    st.caps[c1]? = some cap1 → st.caps[c2]? = some cap2 →
    cap1.onStory = some i → cap2.onStory = some i → False
  single_ops : ∀ (c1 c2 : Nat) (cap1 cap2 : Capability), st.caps[c1]? = some cap1 →
    st.caps[c2]? = some cap2 → cap1.role = .ops → cap2.role = .ops →
    cap1.onStory.isSome → cap2.onStory.isSome → c1 = c2

/-- The hour-boundary invariant of a run used for the lifecycle-monotonicity
development. -/
def GoodState (st : SimState) : Prop :=
  CapsGood st ∧ ∀ (c : Nat) (cap : Capability), st.caps[c]? = some cap → HeldFit st c cap

/-- A fresh team: no capability holds a story yet (how every run starts;
`Capability.__init__` line 198 sets `_on_story = None`). -/
def NoHoldings (st : SimState) : Prop := ∀ c ∈ st.caps, c.onStory = none

/-! ## Concrete fixtures shared by witnesses and counterexamples -/

/-- A 3-point active unassigned story. -/
def tieStoryA : UserStory :=
  { title := "A", points := 3, status := "active", remaining := [("active", 2)],
    assignedTo := none }

/-- Another 3-point active unassigned story (same points as `tieStoryA`). -/
def tieStoryB : UserStory :=
  { title := "B", points := 3, status := "active", remaining := [("active", 2)],
    assignedTo := none }

/-- A developer capability bound to the staff identity at index `mi`. -/
def devCapAt (mi : Nat) : Capability :=
  { role := .dev, motsIdx := mi, productivity := 1, available := [1, 2, 3, 4, 5],
    onStory := none }

/-- A fresh staff identity. -/
def motsNamed (n : String) : MemberOfTechnicalStaff := { name := n, busy := none }

/-- A 1-point and a 2-point active story. -/
def smallStory : UserStory :=
  { title := "S1", points := 1, status := "active", remaining := [("active", 7)],
    assignedTo := none }

/-- See `smallStory`. -/
def bigStory : UserStory :=
  { title := "S2", points := 2, status := "active", remaining := [("active", 14)],
    assignedTo := none }

/-- Two developers (staff identities 0 and 1, scanned in that order) and two
active stories of different sizes. -/
def twoDevState : SimState :=
  { backlog := [smallStory, bigStory], caps := [devCapAt 0, devCapAt 1],
    motss := [motsNamed "alice", motsNamed "bob"], system := initialSystem }

/-- The same team as `twoDevState` with the two developers scanned in the
opposite order. -/
def twoDevStateSwapped : SimState :=
  { backlog := [smallStory, bigStory], caps := [devCapAt 1, devCapAt 0],
    motss := [motsNamed "alice", motsNamed "bob"], system := initialSystem }

/-- An Ops capability holding story 0 (one hour of `resolved` work left)
while story 1 is also `resolved` with five hours left; the environment is
locked, as Ops reserved it on pick-up. -/
def opsStuckState : SimState :=
  { backlog :=
      [{ title := "R0", points := 1, status := "resolved",
         remaining := [("resolved", 1), ("deployed", 5)], assignedTo := some 0 },
       { title := "R1", points := 1, status := "resolved",
         remaining := [("resolved", 5), ("deployed", 5)], assignedTo := none }],
    caps := [{ role := .ops, motsIdx := 0, productivity := 1,
               available := [1, 2, 3, 4, 5], onStory := some 0 }],
    motss := [motsNamed "alice"],
    system := { logons := [], available := false } }

/-- The backlog-preservation relation of the pick-up phase: story statuses,
remaining-effort profiles and points are untouched; only assignment fields
may change. -/
def PreservesStories (st st' : SimState) : Prop :=
  st'.backlog.length = st.backlog.length ∧
  ∀ (i : Nat) (s : UserStory), st.backlog[i]? = some s →
    ∃ s' : UserStory, st'.backlog[i]? = some s' ∧ s'.status = s.status ∧
      s'.remaining = s.remaining ∧ s'.points = s.points

/-- The pick-up output on the two-developer fixture, used by the C2
witness. -/
def twoDevPickOut : List HourAssignment × Bool × SimState :=
  ([⟨0, 1⟩, ⟨1, 0⟩], true,
   { backlog :=
       [{ title := "S1", points := 1, status := "active",
          remaining := [("active", 7)], assignedTo := some 1 },
        { title := "S2", points := 2, status := "active",
          remaining := [("active", 14)], assignedTo := some 0 }],
     caps := [{ role := .dev, motsIdx := 0, productivity := 1,
                available := [1, 2, 3, 4, 5], onStory := some 1 },
              { role := .dev, motsIdx := 1, productivity := 1,
                available := [1, 2, 3, 4, 5], onStory := some 0 }],
     motss := [{ name := "alice", busy := some 0 },
               { name := "bob", busy := some 1 }],
     system := { logons := [], available := true } })

/-- The state after the stuck-Ops hour of progress, used by the C4 and C8
witnesses. -/
def opsStuckAfter : SimState :=
  { backlog :=
      [{ title := "R0", points := 1, status := "deployed",
         remaining := [("resolved", 0), ("deployed", 5)], assignedTo := none },
       { title := "R1", points := 1, status := "resolved",
         remaining := [("resolved", 4), ("deployed", 5)], assignedTo := none }],
    caps := [{ role := .ops, motsIdx := 0, productivity := 1,
               available := [1, 2, 3, 4, 5], onStory := some 0 }],
    motss := [motsNamed "alice"],
    system := { logons := [], available := false } }

/-- The pending related story of the stuck-Ops fixture. -/
def storyR1 : UserStory :=
  { title := "R1", points := 1, status := "resolved",
    remaining := [("resolved", 5), ("deployed", 5)], assignedTo := none }

/-- Statuses never step backward in the lifecycle order between two states
of unchanged backlog length. -/
def StatusMonotone (st st' : SimState) : Prop :=
  st'.backlog.length = st.backlog.length ∧
  ∀ (j : Nat) (s s' : UserStory), st.backlog[j]? = some s →
    st'.backlog[j]? = some s' → statusIdx s.status ≤ statusIdx s'.status

/-- Every collected assignment is the story its capability is on. -/
def AsgnsLinked (st : SimState) (asgns : List HourAssignment) : Prop :=
  ∀ a ∈ asgns, ∃ cap : Capability, st.caps[a.capIdx]? = some cap ∧
    cap.onStory = some a.storyIdx

/-! ## General lemmas about the embedding -/

theorem modifyAt_length {α : Type} (l : List α) (i : Nat) (f : α → α) :
    (modifyAt l i f).length = l.length := by
  unfold modifyAt
  cases h : l[i]? with
  | none => rfl
  | some a => exact List.length_set l i (f a)

theorem getElem?_modifyAt_ne {α : Type} (l : List α) (i j : Nat) (f : α → α)
    (h : i ≠ j) : (modifyAt l i f)[j]? = l[j]? := by
  unfold modifyAt
  cases hl : l[i]? with
  | none => rfl
  | some a => exact List.getElem?_set_ne h

theorem getElem?_modifyAt_self {α : Type} (l : List α) (i : Nat) (f : α → α)
    (a : α) (h : l[i]? = some a) : (modifyAt l i f)[i]? = some (f a) := by
  have hi : i < l.length := by
    by_contra hc
    simp [List.getElem?_eq_none (Nat.le_of_not_lt hc)] at h
  unfold modifyAt
  rw [h]
  simp [List.getElem?_set_self', hi]

/-- Under the source's policy constant (larger stories first), `pickMeBefore`
answers whether the candidate's points are at least the current pick's. -/
theorem pickMeBefore_eq_le (s t : UserStory) :
    s.pickMeBefore t = decide (t.points ≤ s.points) := by
  by_cases h : s.points < t.points
  · simp [UserStory.pickMeBefore, pickMeBeforePolicy, PICK_SMALLER_STORY_FIRST_POLICY,
      h, Int.not_le.mpr h]
  · simp [UserStory.pickMeBefore, pickMeBeforePolicy, PICK_SMALLER_STORY_FIRST_POLICY,
      h, Int.not_lt.mp h]

/-! ## C6: logon and logoff -/

/-- C6.  `logon(id)` and `logoff(id)` both fail with the `System down` error
whenever the environment is unavailable; `logoff` of an identity not in the
logon set is an error (`KeyError`) even while the environment is available;
otherwise they succeed by adding, respectively removing, the identity. -/
theorem claim_C6_logon_logoff (sys : System) (u : String) :
    (sys.available = false →
      sys.logon u = .error "System down" ∧ sys.logoff u = .error "System down") ∧
    (sys.available = true → u ∉ sys.logons → sys.logoff u = .error "KeyError") ∧
    (sys.available = true →
      sys.logon u = .ok { sys with
        logons := if u ∈ sys.logons then sys.logons else sys.logons ++ [u] }) ∧
    (sys.available = true → u ∈ sys.logons →
      sys.logoff u = .ok { sys with logons := sys.logons.erase u }) := by
  refine ⟨fun h => ⟨?_, ?_⟩, fun h hn => ?_, fun h => ?_, fun h hm => ?_⟩ <;>
    simp [System.logon, System.logoff, h]
  · intro hc
    exact absurd hc hn
  · exact hm

/-- Witness for C6 at concrete inputs. -/
theorem claim_C6_logon_logoff_witness :
    ({ logons := [], available := false } : System).logon "u" = .error "System down" ∧
    ({ logons := [], available := true } : System).logoff "u" = .error "KeyError" ∧
    ({ logons := [], available := true } : System).logon "u" =
      .ok { logons := ["u"], available := true } ∧
    ({ logons := ["u"], available := true } : System).logoff "u" =
      .ok { logons := [], available := true } := by
  refine ⟨((claim_C6_logon_logoff _ "u").1 rfl).1, ?_, ?_, ?_⟩
  · exact (claim_C6_logon_logoff { logons := [], available := true } "u").2.1 rfl
      (by decide)
  · simpa using (claim_C6_logon_logoff { logons := [], available := true } "u").2.2.1 rfl
  · simpa using (claim_C6_logon_logoff { logons := ["u"], available := true } "u").2.2.2
      rfl (by decide)

/-! ## C5: capability construction -/

/-- C5 counterexample.  The claim says construction fails exactly when
*neither* a name *nor* a capability reference is supplied, and that a
reference alone succeeds.  In the source (lines 189-200) the
`Invalid initial parameters` check runs *before* the reference is consulted,
so construction with a reference but no name raises all the same. -/
theorem claim_C5_counterexample :
    capabilityInit .qa none (some (devCapAt 0)) 1 [1, 2, 3, 4, 5] 7 =
      .error "Invalid initial parameters" := rfl

/-- C5 amended.  Construction raises the fatal `Invalid initial parameters`
error exactly when no (truthy) staff identity name is supplied — a
capability reference alone does not prevent the error; when a name is
supplied together with a reference to a previously defined capability,
construction succeeds and the new role is attached to the referenced
capability's staff identity. -/
theorem claim_C5_amended (role : Role) (name : Option String)
    (capability : Option Capability) (productivity : Int)
    (available : List Nat) (freshMotsIdx : Nat) :
    (capabilityInit role name capability productivity available freshMotsIdx =
        .error "Invalid initial parameters" ↔
      (∀ n, name = some n → n.isEmpty = true)) ∧
    (∀ n c, name = some n → n.isEmpty = false → capability = some c →
      capabilityInit role name capability productivity available freshMotsIdx =
        .ok { role := role, motsIdx := c.motsIdx, productivity := productivity,
              available := available, onStory := none }) := by
  constructor
  · constructor
    · intro h n hn
      subst hn
      by_contra hne
      have hei : n.isEmpty = false := by
        cases hei0 : n.isEmpty
        · rfl
        · exact absurd hei0 hne
      cases capability <;> simp [capabilityInit, hei] at h
    · intro h
      cases name with
      | none => rfl
      | some n0 => simp [capabilityInit, h n0 rfl]
  · intro n c hn he hc
    subst hn
    subst hc
    simp [capabilityInit, he]

/-- Witness for C5 amended at concrete inputs. -/
theorem claim_C5_amended_witness :
    capabilityInit .qa (some "dan") (some (devCapAt 0)) 1 [1, 2, 3, 4, 5] 7 =
      .ok { role := .qa, motsIdx := 0, productivity := 1,
            available := [1, 2, 3, 4, 5], onStory := none } :=
  (claim_C5_amended .qa (some "dan") (some (devCapAt 0)) 1 [1, 2, 3, 4, 5] 7).2
    "dan" (devCapAt 0) rfl rfl rfl

/-! ## C3: the Productivity field of the team feed -/

/-- C3.  The claim says a constructed capability's productivity equals the
record's optional `Productivity` field (default 1).  In the source,
`MemberFactory.new` computes that value (line 389) but then passes the
literal `1` to the constructor (line 396), so a record with
`Productivity = 3` still yields a capability of productivity 1; the hourly
effort applied by `progressOneHour` is `self.productivity()` (line 254),
i.e. 1 as well. -/
theorem claim_C3_productivity_ignored :
    (MemberFactory.new emptyMemberFactory
        { id := "carol", role := "Developer", productivityField := some 3,
          availableField := none }).map
      (fun s => s.members.map Capability.productivity) = .ok [1] := rfl

/-! ## C9: idempotence of the pick-up operation -/

/-- C9.  For a capability already holding a story, `grabNextStory` returns
that story and leaves the whole state (backlog, shared environment, staff
busy flags) unchanged; hence calling it twice in the same hour — with any
dry-run flags — returns the same story both times and the second call has no
side effects. -/
theorem claim_C9_grab_idempotent (st : SimState) (capIdx : Nat)
    (cap : Capability) (s : Nat) (d1 d2 : Bool)
    (h1 : st.caps[capIdx]? = some cap) (h2 : cap.onStory = some s) :
    grabNextStory capIdx st d1 = .ok (some s, st) ∧
    grabNextStory capIdx st d2 = .ok (some s, st) := by
  constructor <;> simp [grabNextStory, h1, h2]

/-- Witness for C9: a capability holding story 1 in a concrete state. -/
theorem claim_C9_grab_idempotent_witness :
    grabNextStory 0 opsStuckState false = .ok (some 0, opsStuckState) ∧
    grabNextStory 0 opsStuckState true = .ok (some 0, opsStuckState) :=
  claim_C9_grab_idempotent opsStuckState 0
    { role := .ops, motsIdx := 0, productivity := 1,
      available := [1, 2, 3, 4, 5], onStory := some 0 } 0 false true rfl rfl

/-! ## The candidate scan: soundness and the last-argmax characterisation -/

/-- One step of the scan keeps the pick or replaces it by the current
candidate. -/
theorem scanPickAux_sound (role : Role) (sys : System) :
    ∀ (l : List (Nat × UserStory)) (pick : Option (Nat × UserStory))
      (i : Nat) (s : UserStory),
      scanPickAux role sys pick l = some (i, s) →
      ((i, s) ∈ l ∧ isCandidate role sys s = true) ∨ pick = some (i, s) := by
  intro l
  induction l with
  | nil =>
    intro pick i s h
    right
    simpa [scanPickAux] using h
  | cons hd rest ih =>
    obtain ⟨ix, story⟩ := hd
    intro pick i s h
    simp only [scanPickAux] at h
    by_cases hA : (story.assignedTo.isNone && acceptStatus role story.status) = true
    · by_cases hC : areResourcesAvailable role sys = true
      · rcases pick with _ | p
        · have h' : scanPickAux role sys (some (ix, story)) rest = some (i, s) := by
            simpa [hA, hC] using h
          rcases ih _ _ _ h' with ⟨hm, hc⟩ | hp
          · exact Or.inl ⟨List.mem_cons_of_mem _ hm, hc⟩
          · have he : ix = i ∧ story = s := by simpa using hp
            obtain ⟨he1, he2⟩ := he
            subst he1
            subst he2
            exact Or.inl ⟨List.mem_cons_self _ _, by simp [isCandidate, hA, hC]⟩
        · by_cases hrep : story.pickMeBefore p.2 = true
          · have h' : scanPickAux role sys (some (ix, story)) rest = some (i, s) := by
              simpa [hA, hC, hrep] using h
            rcases ih _ _ _ h' with ⟨hm, hc⟩ | hp
            · exact Or.inl ⟨List.mem_cons_of_mem _ hm, hc⟩
            · have he : ix = i ∧ story = s := by simpa using hp
              obtain ⟨he1, he2⟩ := he
              subst he1
              subst he2
              exact Or.inl ⟨List.mem_cons_self _ _, by simp [isCandidate, hA, hC]⟩
          · have h' : scanPickAux role sys (some p) rest = some (i, s) := by
              simpa [hA, hC, hrep] using h
            rcases ih _ _ _ h' with ⟨hm, hc⟩ | hp
            · exact Or.inl ⟨List.mem_cons_of_mem _ hm, hc⟩
            · exact Or.inr hp
      · have h' : scanPickAux role sys pick rest = some (i, s) := by
          simpa [hA, hC] using h
        rcases ih _ _ _ h' with ⟨hm, hc⟩ | hp
        · exact Or.inl ⟨List.mem_cons_of_mem _ hm, hc⟩
        · exact Or.inr hp
    · have h' : scanPickAux role sys pick rest = some (i, s) := by
        simpa [hA] using h
      rcases ih _ _ _ h' with ⟨hm, hc⟩ | hp
      · exact Or.inl ⟨List.mem_cons_of_mem _ hm, hc⟩
      · exact Or.inr hp

/-- Starting the scan from a pick can only end at a pick with at least as
many points (under the source's larger-first policy constant). -/
theorem scanPickAux_mono (role : Role) (sys : System) :
    ∀ (l : List (Nat × UserStory)) (p : Nat × UserStory),
      ∃ q : Nat × UserStory, scanPickAux role sys (some p) l = some q ∧
        p.2.points ≤ q.2.points := by
  intro l
  induction l with
  | nil =>
    intro p
    exact ⟨p, rfl, le_refl _⟩
  | cons hd rest ih =>
    obtain ⟨ix, story⟩ := hd
    intro p
    simp only [scanPickAux]
    by_cases hA : (story.assignedTo.isNone && acceptStatus role story.status) = true
    · by_cases hC : areResourcesAvailable role sys = true
      · by_cases hrep : story.pickMeBefore p.2 = true
        · have hle : p.2.points ≤ story.points := by
            rw [pickMeBefore_eq_le] at hrep
            exact of_decide_eq_true hrep
          obtain ⟨q, hq, hq2⟩ := ih (ix, story)
          refine ⟨q, ?_, le_trans hle hq2⟩
          simpa [hA, hC, hrep] using hq
        · obtain ⟨q, hq, hq2⟩ := ih p
          refine ⟨q, ?_, hq2⟩
          simpa [hA, hC, hrep] using hq
      · obtain ⟨q, hq, hq2⟩ := ih p
        refine ⟨q, ?_, hq2⟩
        simpa [hA, hC] using hq
    · obtain ⟨q, hq, hq2⟩ := ih p
      refine ⟨q, ?_, hq2⟩
      simpa [hA] using hq

/-- Any candidate appearing in the scanned list forces the scan to end at a
pick with at least as many points. -/
theorem scanPickAux_dominates (role : Role) (sys : System) :
    ∀ (l : List (Nat × UserStory)) (j : Nat) (t : UserStory),
      (j, t) ∈ l → isCandidate role sys t = true →
      ∀ pick : Option (Nat × UserStory),
        ∃ q : Nat × UserStory, scanPickAux role sys pick l = some q ∧
          t.points ≤ q.2.points := by
  intro l
  induction l with
  | nil =>
    intro j t hm
    cases hm
  | cons hd rest ih =>
    obtain ⟨ix, story⟩ := hd
    intro j t hm hc pick
    rcases List.mem_cons.mp hm with heq | hmem
    · cases heq
      have hA : (story.assignedTo.isNone && acceptStatus role story.status) = true := by
        have := hc
        simp only [isCandidate, Bool.and_eq_true] at this
        simp [this.1.1, this.1.2]
      have hC : areResourcesAvailable role sys = true := by
        have := hc
        simp only [isCandidate, Bool.and_eq_true] at this
        exact this.2
      simp only [scanPickAux]
      rcases pick with _ | p
      · obtain ⟨q, hq, hq2⟩ := scanPickAux_mono role sys rest (ix, story)
        refine ⟨q, ?_, hq2⟩
        simpa [hA, hC] using hq
      · by_cases hrep : story.pickMeBefore p.2 = true
        · obtain ⟨q, hq, hq2⟩ := scanPickAux_mono role sys rest (ix, story)
          refine ⟨q, ?_, hq2⟩
          simpa [hA, hC, hrep] using hq
        · have hlt : story.points < p.2.points := by
            rw [pickMeBefore_eq_le] at hrep
            exact Int.not_le.mp (fun hcon => hrep (decide_eq_true hcon))
          obtain ⟨q, hq, hq2⟩ := scanPickAux_mono role sys rest p
          refine ⟨q, ?_, le_trans (Int.le_of_lt hlt) hq2⟩
          simpa [hA, hC, hrep] using hq
    · simp only [scanPickAux]
      exact ih j t hmem hc _

/-- Among the candidates scanned after the eventual pick, every one has
strictly fewer points: under the larger-first policy an equal-points
candidate would have replaced the pick, so ties are broken toward the
latest-scanned candidate, not the earliest. -/
theorem scanPickAux_last (role : Role) (sys : System) :
    ∀ (l : List (Nat × UserStory)) (pick : Option (Nat × UserStory)),
      (l.map Prod.fst).Pairwise (fun a b => a < b) →
      (∀ p : Nat × UserStory, pick = some p → ∀ q ∈ l, p.1 < q.1) →
      ∀ (i : Nat) (s : UserStory), scanPickAux role sys pick l = some (i, s) →
      ∀ (j : Nat) (t : UserStory), (j, t) ∈ l → isCandidate role sys t = true →
        i < j → t.points < s.points := by
  intro l
  induction l with
  | nil =>
    intro pick hpw hpk i s h j t hm
    cases hm
  | cons hd rest ih =>
    obtain ⟨ix, story⟩ := hd
    intro pick hpw hpk i s h j t hm hc hij
    have hpw' : (rest.map Prod.fst).Pairwise (fun a b => a < b) :=
      (List.pairwise_cons.mp (by simpa using hpw)).2
    have hhead : ∀ q ∈ rest, ix < q.1 := by
      intro q hq
      exact (List.pairwise_cons.mp (by simpa using hpw)).1 q.1
        (List.mem_map_of_mem Prod.fst hq)
    simp only [scanPickAux] at h
    rcases List.mem_cons.mp hm with heq | hmem
    · -- the candidate in question is the head
      cases heq
      have hA : (story.assignedTo.isNone && acceptStatus role story.status) = true := by
        have := hc
        simp only [isCandidate, Bool.and_eq_true] at this
        simp [this.1.1, this.1.2]
      have hC : areResourcesAvailable role sys = true := by
        have := hc
        simp only [isCandidate, Bool.and_eq_true] at this
        exact this.2
      rcases pick with _ | p
      · -- pick' = some (ix, story): the result lives at an index ≥ ix
        have h' : scanPickAux role sys (some (ix, story)) rest = some (i, s) := by
          simpa [hA, hC] using h
        rcases scanPickAux_sound role sys rest (some (ix, story)) i s h' with ⟨hmr, -⟩ | hpr
        · have : ix < i := hhead (i, s) hmr
          omega
        · have : ix = i := by
            have := hpr
            simp at this
            omega
          omega
      · by_cases hrep : story.pickMeBefore p.2 = true
        · have h' : scanPickAux role sys (some (ix, story)) rest = some (i, s) := by
            simpa [hA, hC, hrep] using h
          rcases scanPickAux_sound role sys rest (some (ix, story)) i s h' with ⟨hmr, -⟩ | hpr
          · have : ix < i := hhead (i, s) hmr
            omega
          · have : ix = i := by
              have := hpr
              simp at this
              omega
            omega
        · -- the head lost to the current pick p: story.points < p.2.points ≤ s.points
          have h' : scanPickAux role sys (some p) rest = some (i, s) := by
            simpa [hA, hC, hrep] using h
          have hlt : story.points < p.2.points := by
            rw [pickMeBefore_eq_le] at hrep
            exact Int.not_le.mp (fun hcon => hrep (decide_eq_true hcon))
          obtain ⟨q, hq, hq2⟩ := scanPickAux_mono role sys rest p
          rw [h'] at hq
          have : q = (i, s) := by
            cases hq
            rfl
          subst this
          exact lt_of_lt_of_le hlt hq2
    · -- the candidate in question is in the tail
      by_cases hA : (story.assignedTo.isNone && acceptStatus role story.status) = true
      · by_cases hC : areResourcesAvailable role sys = true
        · rcases pick with _ | p
          · have h' : scanPickAux role sys (some (ix, story)) rest = some (i, s) := by
              simpa [hA, hC] using h
            refine ih (some (ix, story)) hpw' ?_ i s h' j t hmem hc hij
            intro p0 hp0 q hq
            cases hp0
            exact hhead q hq
          · by_cases hrep : story.pickMeBefore p.2 = true
            · have h' : scanPickAux role sys (some (ix, story)) rest = some (i, s) := by
                simpa [hA, hC, hrep] using h
              refine ih (some (ix, story)) hpw' ?_ i s h' j t hmem hc hij
              intro p0 hp0 q hq
              cases hp0
              exact hhead q hq
            · have h' : scanPickAux role sys (some p) rest = some (i, s) := by
                simpa [hA, hC, hrep] using h
              refine ih (some p) hpw' ?_ i s h' j t hmem hc hij
              intro p0 hp0 q hq
              cases hp0
              exact hpk p rfl q (List.mem_cons_of_mem _ hq)
        · have h' : scanPickAux role sys pick rest = some (i, s) := by
            simpa [hA, hC] using h
          refine ih pick hpw' ?_ i s h' j t hmem hc hij
          intro p0 hp0 q hq
          exact hpk p0 hp0 q (List.mem_cons_of_mem _ hq)
      · have h' : scanPickAux role sys pick rest = some (i, s) := by
          simpa [hA] using h
        refine ih pick hpw' ?_ i s h' j t hmem hc hij
        intro p0 hp0 q hq
        exact hpk p0 hp0 q (List.mem_cons_of_mem _ hq)

/-! ## C1: the tie-break rule of the candidate scan -/

/-- C1 counterexample.  The claim says the comparison returns false for
equal points under either policy, so the earliest-scanned acceptable item is
selected.  Under the source's actual policy constant (`False`, larger
first), `pickMeBefore` is `(points < points) == False`, which is *true* for
equal points, and the scan over two equal 3-point candidates returns the
*later* one (index 1), not the earliest. -/
theorem claim_C1_counterexample :
    tieStoryA.points = tieStoryB.points ∧
    tieStoryA.pickMeBefore tieStoryB = true ∧
    scanPick .dev initialSystem [tieStoryA, tieStoryB] = some (1, tieStoryB) :=
  ⟨rfl, rfl, rfl⟩

/-- C1 amended.  Candidates are compared pairwise by point estimate under
the global policy constant; for equal points the comparison returns false
under the smaller-first policy but *true* under the default larger-first
policy, so under the default the scan keeps the *latest*-scanned acceptable
item among those of maximal points: the selected story has at least as many
points as every acceptable, resource-eligible, unassigned candidate, and
every such candidate scanned after it has strictly fewer points. -/
theorem claim_C1_amended :
    (∀ s t : UserStory, s.points = t.points →
      pickMeBeforePolicy true s t = false ∧ pickMeBeforePolicy false s t = true) ∧
    (∀ (role : Role) (sys : System) (backlog : List UserStory) (i : Nat)
      (s : UserStory), scanPick role sys backlog = some (i, s) →
      backlog[i]? = some s ∧ isCandidate role sys s = true ∧
      (∀ (j : Nat) (t : UserStory), backlog[j]? = some t →
        isCandidate role sys t = true →
        t.points ≤ s.points ∧ (i < j → t.points < s.points))) := by
  constructor
  · intro s t hst
    constructor
    · simp [pickMeBeforePolicy, hst]
    · simp [pickMeBeforePolicy, hst]
  · intro role sys backlog i s h
    rw [scanPick] at h
    have hsound := scanPickAux_sound role sys backlog.enum none i s h
    rcases hsound with ⟨hmem, hcand⟩ | hbad
    · refine ⟨List.mk_mem_enum_iff_getElem?.mp hmem, hcand, ?_⟩
      intro j t hj hct
      have hmemj : (j, t) ∈ backlog.enum := List.mk_mem_enum_iff_getElem?.mpr hj
      constructor
      · obtain ⟨q, hq, hq2⟩ := scanPickAux_dominates role sys backlog.enum j t hmemj hct none
        rw [h] at hq
        have : q = (i, s) := by
          cases hq
          rfl
        subst this
        exact hq2
      · intro hij
        have hpw : (backlog.enum.map Prod.fst).Pairwise (fun a b => a < b) := by
          rw [List.enum_map_fst]
          exact List.pairwise_lt_range _
        exact scanPickAux_last role sys backlog.enum none hpw
          (fun p hp => by cases hp) i s h j t hmemj hct hij
    · cases hbad

/-- Witness for C1 amended at concrete inputs. -/
theorem claim_C1_amended_witness :
    pickMeBeforePolicy true tieStoryA tieStoryB = false ∧
    pickMeBeforePolicy false tieStoryA tieStoryB = true ∧
    [tieStoryA, tieStoryB][1]? = some tieStoryB := by
  obtain ⟨h1, h2⟩ := claim_C1_amended.1 tieStoryA tieStoryB rfl
  obtain ⟨h3, -, -⟩ :=
    claim_C1_amended.2 .dev initialSystem [tieStoryA, tieStoryB] 1 tieStoryB rfl
  exact ⟨h1, h2, h3⟩

/-! ## C7: the exclusive-lock invariant -/

/-- The lock invariant holds in every reachable environment state. -/
theorem reachableSystem_locked_no_logons (s : System) (hr : ReachableSystem s) :
    s.available = false → s.logons = [] := by
  induction hr with
  | init =>
    intro h
    simp [initialSystem] at h
  | step hprev happ ih =>
    rename_i s0 s' op
    intro hl
    cases op with
    | setLock b =>
      simp only [applyOp] at happ
      cases happ
      cases b
      · simp [System.setLock] at hl
      · simp [System.setLock]
    | logon u =>
      cases hav : s0.available
      · simp [applyOp, System.logon, hav] at happ
      · simp only [applyOp, System.logon, hav, if_true] at happ
        cases happ
        simp [hav] at hl
    | logoff u =>
      cases hav : s0.available
      · simp [applyOp, System.logoff, hav] at happ
      · simp only [applyOp, System.logoff, hav, if_true] at happ
        by_cases hm : u ∈ s0.logons
        · rw [if_pos hm] at happ
          cases happ
          simp [hav] at hl
        · rw [if_neg hm] at happ
          cases happ

/-- Reserving resources only performs environment operations of `SysOp`. -/
theorem reserveResources_reachable (role : Role) (name : String)
    (sys sys' : System) (hr : ReachableSystem sys)
    (h : reserveResources role name sys = .ok sys') : ReachableSystem sys' := by
  cases role with
  | dev =>
    cases h
    exact hr
  | ops =>
    cases h
    exact @ReachableSystem.step sys _ (SysOp.setLock true) hr rfl
  | qa => exact @ReachableSystem.step sys sys' (SysOp.logon name) hr h

/-- Releasing resources only performs environment operations of `SysOp`. -/
theorem releaseResources_reachable (role : Role) (name : String)
    (sys sys' : System) (hr : ReachableSystem sys)
    (h : releaseResources role name sys = .ok sys') : ReachableSystem sys' := by
  cases role with
  | dev =>
    cases h
    exact hr
  | ops =>
    cases h
    exact @ReachableSystem.step sys _ (SysOp.setLock false) hr rfl
  | qa => exact @ReachableSystem.step sys sys' (SysOp.logoff name) hr h

/-- A successful pick-up keeps the environment reachable. -/
theorem assignStoryFromBacklog_reachable (capIdx : Nat) (st : SimState)
    (d : Bool) (o : Option Nat) (st' : SimState)
    (hr : ReachableSystem st.system)
    (h : assignStoryFromBacklog capIdx st d = .ok (o, st')) :
    ReachableSystem st'.system := by
  unfold assignStoryFromBacklog at h
  split at h
  · cases h
  · split at h
    · cases h
      exact hr
    · split at h
      · cases h
        exact hr
      · split at h
        · cases h
        · split at h
          · cases h
          · cases h
            exact reserveResources_reachable _ _ _ _ hr (by assumption)

/-- `grabNextStory` keeps the environment reachable. -/
theorem grabNextStory_reachable (capIdx : Nat) (st : SimState) (d : Bool)
    (o : Option Nat) (st' : SimState) (hr : ReachableSystem st.system)
    (h : grabNextStory capIdx st d = .ok (o, st')) :
    ReachableSystem st'.system := by
  unfold grabNextStory at h
  split at h
  · cases h
  · split at h
    · cases h
      exact hr
    · split at h
      · cases h
      · split at h
        · cases h
          exact hr
        · exact assignStoryFromBacklog_reachable _ _ _ _ _ hr h

/-- The progress loop never touches the environment, the capability list or
the staff identities. -/
theorem progressList_frame (role : Role) (prod : Int) :
    ∀ (l : List Nat) (st : SimState) (d : Bool) (st' : SimState) (d' : Bool),
      progressList role prod l st d = .ok (st', d') →
      st'.system = st.system ∧ st'.caps = st.caps ∧ st'.motss = st.motss ∧
        st'.backlog.length = st.backlog.length := by
  intro l
  induction l with
  | nil =>
    intro st d st' d' h
    cases h
    exact ⟨rfl, rfl, rfl, rfl⟩
  | cons i rest ih =>
    intro st d st' d' h
    rw [progressList] at h
    split at h
    · cases h
    · split at h
      · cases h
      · have := ih _ _ _ _ h
        simpa [List.length_set] using this

/-- `progressOneHour` never touches the environment, the capability list or
the staff identities. -/
theorem progressOneHour_frame (capIdx mainIdx : Nat) (st : SimState)
    (st' : SimState) (d : Bool) (h : progressOneHour capIdx mainIdx st = .ok (st', d)) :
    st'.system = st.system ∧ st'.caps = st.caps ∧ st'.motss = st.motss ∧
      st'.backlog.length = st.backlog.length := by
  unfold progressOneHour at h
  split at h
  · cases h
  · exact progressList_frame _ _ _ _ _ _ _ h

/-- `jobDone` keeps the environment reachable. -/
theorem jobDone_reachable (capIdx : Nat) (st st' : SimState)
    (hr : ReachableSystem st.system) (h : jobDone capIdx st = .ok st') :
    ReachableSystem st'.system := by
  unfold jobDone at h
  split at h
  · cases h
  · split at h
    · cases h
    · split at h
      · cases h
      · cases h
        exact releaseResources_reachable _ _ _ _ hr (by assumption)

/-- The pick-up loop keeps the environment reachable. -/
theorem pickUpList_reachable (dow : Nat) :
    ∀ (idxs : List Nat) (asgns : List HourAssignment) (pp : Bool)
      (st : SimState) (out : List HourAssignment × Bool × SimState),
      ReachableSystem st.system → pickUpList dow idxs asgns pp st = .ok out →
      ReachableSystem out.2.2.system := by
  intro idxs
  induction idxs with
  | nil =>
    intro asgns pp st out hr h
    cases h
    exact hr
  | cons c rest ih =>
    intro asgns pp st out hr h
    rw [pickUpList] at h
    split at h
    · cases h
    · split at h
      · cases h
      · rename_i heq
        split at h
        · exact ih _ _ _ _ (grabNextStory_reachable _ _ _ _ _ hr heq) h
        · split at h
          · exact ih _ _ _ _ (grabNextStory_reachable _ _ _ _ _ hr heq) h
          · exact ih _ _ _ _ (grabNextStory_reachable _ _ _ _ _ hr heq) h

/-- The progress loop keeps the environment reachable (it never touches
it). -/
theorem progressAssignments_reachable :
    ∀ (asgns : List HourAssignment) (ds : List (HourAssignment × Bool))
      (st : SimState) (out : List (HourAssignment × Bool) × SimState),
      ReachableSystem st.system → progressAssignments asgns ds st = .ok out →
      ReachableSystem out.2.system := by
  intro asgns
  induction asgns with
  | nil =>
    intro ds st out hr h
    cases h
    exact hr
  | cons a rest ih =>
    intro ds st out hr h
    rw [progressAssignments] at h
    split at h
    · cases h
    · rename_i st'd heq
      have hf := progressOneHour_frame _ _ _ _ _ heq
      refine ih _ _ _ ?_ h
      rw [hf.1]
      exact hr

/-- The release loop keeps the environment reachable. -/
theorem releaseAssignments_reachable :
    ∀ (ds : List (HourAssignment × Bool)) (st : SimState) (st' : SimState),
      ReachableSystem st.system → releaseAssignments ds st = .ok st' →
      ReachableSystem st'.system := by
  intro ds
  induction ds with
  | nil =>
    intro st st' hr h
    cases h
    exact hr
  | cons d rest ih =>
    intro st st' hr h
    rw [releaseAssignments] at h
    split at h
    · cases h
    · rename_i st1 heq
      refine ih _ _ ?_ h
      unfold endOfHour at heq
      split at heq
      · exact jobDone_reachable _ _ _ hr heq
      · cases heq
        exact hr

/-- One simulated hour keeps the environment reachable. -/
theorem scrumulateOneHour_reachable (dow : Nat) (st : SimState)
    (r : Bool × SimState) (hr : ReachableSystem st.system)
    (h : scrumulateOneHour dow st = .ok r) : ReachableSystem r.2.system := by
  unfold scrumulateOneHour at h
  split at h
  · cases h
  · rename_i out1 heq1
    split at h
    · cases h
    · rename_i out2 heq2
      split at h
      · cases h
      · rename_i st3 heq3
        cases h
        exact releaseAssignments_reachable _ _ _
          (progressAssignments_reachable _ _ _ _
            (pickUpList_reachable dow _ _ _ _ _ hr heq1) heq2) heq3

/-- C7.  In every reachable environment state of a run — the environment is
only ever touched through `setLock`, `logon` and `logoff`, and every
simulated hour maps reachable environment states to reachable environment
states — a locked (unavailable) environment has an empty logon set. -/
theorem claim_C7_lock_invariant :
    (∀ s : System, ReachableSystem s → s.available = false → s.logons = []) ∧
    (∀ (dow : Nat) (st : SimState) (r : Bool × SimState),
      ReachableSystem st.system → scrumulateOneHour dow st = .ok r →
      ReachableSystem r.2.system) :=
  ⟨fun s hr hl => reachableSystem_locked_no_logons s hr hl,
   fun dow st r hr h => scrumulateOneHour_reachable dow st r hr h⟩

/-- Witness for C7: the locked state reached by taking the lock at the start
of a run has an empty logon set. -/
theorem claim_C7_lock_invariant_witness :
    (initialSystem.setLock true).available = false ∧
    (initialSystem.setLock true).logons = [] := by
  have hr : ReachableSystem (initialSystem.setLock true) :=
    @ReachableSystem.step initialSystem _ (SysOp.setLock true)
      ReachableSystem.init rfl
  exact ⟨rfl, claim_C7_lock_invariant.1 _ hr rfl⟩

/-! ## C2: phase ordering within an hour -/

/-- C2 counterexample.  The claim says no capability's assignment is visible
to another capability's assignment decision in the same hour, so the hour's
assignments are independent of the scan order.  With two developers and two
active stories (points 1 and 2), the developer scanned first takes the
2-point story and the other developer sees it as already assigned and takes
the 1-point one; swapping the scan order of the same two capabilities swaps
which staff identity ends the hour on which story. -/
theorem claim_C2_counterexample :
    ∃ r1 r2 : Bool × SimState,
      scrumulateOneHour 1 twoDevState = .ok r1 ∧
      scrumulateOneHour 1 twoDevStateSwapped = .ok r2 ∧
      (r1.2.caps.find? (fun c => c.motsIdx == 0)).map Capability.onStory =
        some (some 1) ∧
      (r2.2.caps.find? (fun c => c.motsIdx == 0)).map Capability.onStory =
        some (some 0) :=
  ⟨_, _, rfl, rfl, rfl, rfl⟩

theorem preservesStories_refl (st : SimState) : PreservesStories st st :=
  ⟨Eq.refl _, fun _ s hs => ⟨s, hs, Eq.refl _, Eq.refl _, Eq.refl _⟩⟩

theorem preservesStories_trans {a b c : SimState}
    (h1 : PreservesStories a b) (h2 : PreservesStories b c) :
    PreservesStories a c := by
  refine ⟨h2.1.trans h1.1, fun i s hs => ?_⟩
  obtain ⟨s1, hs1, e1, e2, e3⟩ := h1.2 i s hs
  obtain ⟨s2, hs2, f1, f2, f3⟩ := h2.2 i s1 hs1
  exact ⟨s2, hs2, f1.trans e1, f2.trans e2, f3.trans e3⟩

/-- A pick-up only rewrites a story's assignee. -/
theorem assignStoryFromBacklog_stories (capIdx : Nat) (st : SimState)
    (d : Bool) (o : Option Nat) (st' : SimState)
    (h : assignStoryFromBacklog capIdx st d = .ok (o, st')) :
    PreservesStories st st' := by
  unfold assignStoryFromBacklog at h
  split at h
  · cases h
  · split at h
    · cases h
      exact preservesStories_refl st
    · rename_i pick hpick
      split at h
      · cases h
        exact preservesStories_refl st
      · split at h
        · cases h
        · split at h
          · cases h
          · cases h
            constructor
            · exact modifyAt_length _ _ _
            · intro i s hs
              by_cases hip : pick.1 = i
              · subst hip
                rw [getElem?_modifyAt_self _ _ _ _ hs]
                exact ⟨_, Eq.refl _, Eq.refl _, Eq.refl _, Eq.refl _⟩
              · rw [getElem?_modifyAt_ne _ _ _ _ hip]
                exact ⟨s, hs, Eq.refl _, Eq.refl _, Eq.refl _⟩

/-- `grabNextStory` only rewrites a story's assignee. -/
theorem grabNextStory_stories (capIdx : Nat) (st : SimState) (d : Bool)
    (o : Option Nat) (st' : SimState)
    (h : grabNextStory capIdx st d = .ok (o, st')) :
    PreservesStories st st' := by
  unfold grabNextStory at h
  split at h
  · cases h
  · split at h
    · cases h
      exact preservesStories_refl st
    · split at h
      · cases h
      · split at h
        · cases h
          exact preservesStories_refl st
        · exact assignStoryFromBacklog_stories _ _ _ _ _ h

/-- The whole pick-up loop only rewrites assignees. -/
theorem pickUpList_stories (dow : Nat) :
    ∀ (idxs : List Nat) (asgns : List HourAssignment) (pp : Bool)
      (st : SimState) (out : List HourAssignment × Bool × SimState),
      pickUpList dow idxs asgns pp st = .ok out →
      PreservesStories st out.2.2 := by
  intro idxs
  induction idxs with
  | nil =>
    intro asgns pp st out h
    cases h
    exact preservesStories_refl st
  | cons c rest ih =>
    intro asgns pp st out h
    rw [pickUpList] at h
    split at h
    · cases h
    · rename_i cap hcap
      split at h
      · cases h
      · rename_i story st' heq
        have hg := grabNextStory_stories _ _ _ _ _ heq
        split at h
        · exact preservesStories_trans hg (ih _ _ _ _ h)
        · split at h
          · exact preservesStories_trans hg (ih _ _ _ _ h)
          · exact preservesStories_trans hg (ih _ _ _ _ h)

/-- C2 amended.  Within one hour all pick-up decisions are made before any
progress is applied and all progress before any release, so no capability's
progress or stage completion is visible to another capability's pick
decision that hour: the pick-up phase leaves every story's status,
remaining-effort profile and points unchanged.  (Assignments made earlier in
the pick-up phase *are* visible to later pick decisions — see the
counterexample — so the hour's assignments can depend on the scan order.) -/
theorem claim_C2_amended (dow : Nat) (st : SimState)
    (asgns : List HourAssignment) (pp : Bool) (st1 : SimState)
    (h : pickUpPhase dow st = .ok (asgns, pp, st1)) :
    st1.backlog.length = st.backlog.length ∧
    ∀ (i : Nat) (s : UserStory), st.backlog[i]? = some s →
      ∃ s' : UserStory, st1.backlog[i]? = some s' ∧ s'.status = s.status ∧
        s'.remaining = s.remaining := by
  have hp := pickUpList_stories dow (List.range st.caps.length) [] false st
    (asgns, pp, st1) h
  refine ⟨hp.1, fun i s hs => ?_⟩
  obtain ⟨s', hs', e1, e2, -⟩ := hp.2 i s hs
  exact ⟨s', hs', e1, e2⟩

/-- Witness for C2 amended at the two-developer fixture. -/
theorem claim_C2_amended_witness :
    twoDevPickOut.2.2.backlog.length = twoDevState.backlog.length ∧
    ∃ s' : UserStory, twoDevPickOut.2.2.backlog[0]? = some s' ∧
      s'.status = smallStory.status ∧ s'.remaining = smallStory.remaining := by
  have h := claim_C2_amended 1 twoDevState twoDevPickOut.1 twoDevPickOut.2.1
    twoDevPickOut.2.2 rfl
  exact ⟨h.1, h.2 0 smallStory rfl⟩

/-! ## The progress loop: per-story characterisation -/

/-- Every role's `nextStatus` ignores its argument and returns the role's
constant target status. -/
theorem nextStatus_eq_roleTarget (r : Role) (x : String) :
    nextStatus r x = roleTarget r := by
  cases r <;> rfl

theorem getElem?_set_of_some {α : Type} (l : List α) (i : Nat) (a b : α)
    (h : l[i]? = some a) : (l.set i b)[i]? = some b := by
  have hi : i < l.length := by
    by_contra hc
    simp [List.getElem?_eq_none (Nat.le_of_not_lt hc)] at h
  simp [List.getElem?_set_self', hi]

/-- The progress loop leaves stories at indices outside its list alone. -/
theorem progressList_untouched (role : Role) (prod : Int) :
    ∀ (l : List Nat) (st : SimState) (d : Bool) (st' : SimState) (d' : Bool),
      progressList role prod l st d = .ok (st', d') →
      ∀ j : Nat, j ∉ l → st'.backlog[j]? = st.backlog[j]? := by
  intro l
  induction l with
  | nil =>
    intro st d st' d' h j hj
    cases h
    rfl
  | cons i rest ih =>
    intro st d st' d' h j hj
    rw [progressList] at h
    split at h
    · cases h
    · split at h
      · cases h
      · have hj1 : j ∉ rest := fun hc => hj (List.mem_cons_of_mem _ hc)
        have hji : j ≠ i := fun hc => hj (hc ▸ List.mem_cons_self _ _)
        rw [ih _ _ _ _ h j hj1]
        exact List.getElem?_set_ne (fun hc => hji hc.symm)

/-- Each index in the (duplicate-free) progress list is progressed exactly
once, from its story as it stood when the loop started. -/
theorem progressList_touched (role : Role) (prod : Int) :
    ∀ (l : List Nat) (st : SimState) (d : Bool) (st' : SimState) (d' : Bool),
      progressList role prod l st d = .ok (st', d') → l.Nodup →
      ∀ i ∈ l, ∃ s s' : UserStory, st.backlog[i]? = some s ∧
        s.progress prod (nextStatus role s.status) = .ok s' ∧
        st'.backlog[i]? = some s' := by
  intro l
  induction l with
  | nil =>
    intro st d st' d' h hnd i hi
    cases hi
  | cons hd rest ih =>
    intro st d st' d' h hnd i hi
    rw [progressList] at h
    split at h
    · cases h
    · rename_i story hstory
      split at h
      · cases h
      · rename_i story' hprog
        have hhd : hd ∉ rest := (List.nodup_cons.mp hnd).1
        rcases List.mem_cons.mp hi with rfl | hmem
        · refine ⟨story, story', hstory, hprog, ?_⟩
          rw [progressList_untouched role prod rest _ _ _ _ h i hhd]
          exact getElem?_set_of_some _ _ _ _ hstory
        · have hne : i ≠ hd := fun hc => hhd (hc ▸ hmem)
          obtain ⟨s, s', hs, hp, hs'⟩ := ih _ _ _ _ h (List.nodup_cons.mp hnd).2 i hmem
          refine ⟨s, s', ?_, hp, hs'⟩
          rw [← hs]
          exact (List.getElem?_set_ne (fun hc => hne hc.symm)).symm

/-- The `done` flag of the progress loop: true exactly when it started true
and every progressed story ended at the role's target status. -/
theorem progressList_done (role : Role) (prod : Int) :
    ∀ (l : List Nat) (st : SimState) (d : Bool) (st' : SimState) (d' : Bool),
      progressList role prod l st d = .ok (st', d') → l.Nodup →
      (d' = true ↔ (d = true ∧ ∀ i ∈ l, ∀ s' : UserStory,
        st'.backlog[i]? = some s' → s'.status = roleTarget role)) := by
  intro l
  induction l with
  | nil =>
    intro st d st' d' h hnd
    cases h
    simp
  | cons hd rest ih =>
    intro st d st' d' h hnd
    rw [progressList] at h
    split at h
    · cases h
    · rename_i story hstory
      split at h
      · cases h
      · rename_i story' hprog
        have hhd : hd ∉ rest := (List.nodup_cons.mp hnd).1
        have hpost : st'.backlog[hd]? = some story' := by
          rw [progressList_untouched role prod rest _ _ _ _ h hd hhd]
          exact getElem?_set_of_some _ _ _ _ hstory
        have := ih _ _ _ _ h (List.nodup_cons.mp hnd).2
        rw [this]
        rw [nextStatus_eq_roleTarget] at *
        constructor
        · rintro ⟨hd1, hrest⟩
          rw [Bool.and_eq_true] at hd1
          refine ⟨hd1.1, ?_⟩
          intro i hi s' hs'
          rcases List.mem_cons.mp hi with rfl | hmem
          · rw [hpost] at hs'
            cases hs'
            exact beq_iff_eq.mp hd1.2
          · exact hrest i hmem s' hs'
        · rintro ⟨hd1, hall⟩
          refine ⟨?_, fun i hi s' hs' => hall i (List.mem_cons_of_mem _ hi) s' hs'⟩
          rw [Bool.and_eq_true]
          exact ⟨hd1, beq_iff_eq.mpr (hall hd (List.mem_cons_self _ _) story' hpost)⟩

/-- The progress list of a capability is duplicate-free: the related indices
are a subsequence of the backlog's index range with the main index filtered
out. -/
theorem progress_indices_nodup (role : Role) (backlog : List UserStory)
    (mainIdx : Nat) : (mainIdx :: relatedIndices role backlog mainIdx).Nodup := by
  cases role with
  | dev => simp [relatedIndices]
  | qa => simp [relatedIndices]
  | ops =>
    rw [List.nodup_cons]
    constructor
    · intro hmem
      rw [relatedIndices] at hmem
      have := List.of_mem_filter hmem
      simp at this
    · apply List.Nodup.filter
      have hsub : ((backlog.enum.filter
          (fun p => acceptStatus .ops p.2.status)).map Prod.fst).Sublist
          (backlog.enum.map Prod.fst) :=
        (List.filter_sublist _).map _
      rw [List.enum_map_fst] at hsub
      exact hsub.nodup (List.nodup_range _)

/-- Membership in the Ops related list: any *other* backlog index whose
story is currently resolved. -/
theorem mem_relatedIndices_ops (backlog : List UserStory) (mainIdx j : Nat) :
    j ∈ relatedIndices .ops backlog mainIdx ↔
      (j ≠ mainIdx ∧ ∃ s : UserStory, backlog[j]? = some s ∧
        s.status = "resolved") := by
  rw [relatedIndices]
  simp only [List.mem_filter, List.mem_map, bne_iff_ne]
  constructor
  · rintro ⟨⟨⟨p1, p2⟩, hp, rfl⟩, hne⟩
    refine ⟨hne, p2, ?_, ?_⟩
    · exact List.mk_mem_enum_iff_getElem?.mp hp.1
    · simpa [acceptStatus] using hp.2
  · rintro ⟨hne, s, hs, hstat⟩
    exact ⟨⟨(j, s), ⟨List.mk_mem_enum_iff_getElem?.mpr hs,
      by simp [acceptStatus, hstat]⟩, rfl⟩, hne⟩

/-! ## C4: the release condition -/

/-- C4 counterexample.  The claim says a capability releases if and only if
the story it holds completed its stage this hour.  An Ops capability holding
story 0 (one hour of resolved work left) while story 1 is also resolved
(five hours left): during the hour, story 0 completes its stage (it ends the
hour deployed), but `progressOneHour` reports done only when *every*
progressed story — the related resolved story 1 included — reached the
target status, so the capability keeps its claim and the lock. -/
theorem claim_C4_counterexample :
    ∃ r : Bool × SimState, scrumulateOneHour 1 opsStuckState = .ok r ∧
      (r.2.backlog[0]?).map UserStory.status = some "deployed" ∧
      (r.2.caps[0]?).map Capability.onStory = some (some 0) ∧
      r.2.system.available = false :=
  ⟨_, rfl, rfl, rfl, rfl⟩

/-- C4 amended.  In the release phase a capability that progressed a story
releases its resources and clears its claim exactly when `progressOneHour`
reported done, and done holds exactly when *every* story it progressed that
hour — its held story and, for Ops, every then-resolved backlog item —
ended the hour in the role's target status.  For Developer and QA, no
related stories exist, so this is exactly the held story having completed
its stage. -/
theorem claim_C4_amended (capIdx mainIdx : Nat) (st : SimState)
    (cap : Capability) (st' : SimState) (done : Bool)
    (hcap : st.caps[capIdx]? = some cap)
    (h : progressOneHour capIdx mainIdx st = .ok (st', done)) :
    (done = true ↔ ∀ i ∈ mainIdx :: relatedIndices cap.role st.backlog mainIdx,
      ∀ s' : UserStory, st'.backlog[i]? = some s' →
        s'.status = roleTarget cap.role) ∧
    (done = true → endOfHour capIdx done st' = jobDone capIdx st') ∧
    (done = false → endOfHour capIdx done st' = .ok st') := by
  unfold progressOneHour at h
  rw [hcap] at h
  have hnd := progress_indices_nodup cap.role st.backlog mainIdx
  have hdone := progressList_done cap.role cap.productivity _ st true st' done h hnd
  refine ⟨by simpa using hdone, fun hd => ?_, fun hd => ?_⟩
  · simp [endOfHour, hd]
  · simp [endOfHour, hd]

/-- Witness for C4 amended on the stuck-Ops fixture: the hour reports not
done (story 1 is still resolved), so the release step is a no-op. -/
theorem claim_C4_amended_witness :
    endOfHour 0 false opsStuckAfter = .ok opsStuckAfter ∧
    (false = true ↔ ∀ i ∈ 0 :: relatedIndices Role.ops opsStuckState.backlog 0,
      ∀ s' : UserStory, opsStuckAfter.backlog[i]? = some s' →
        s'.status = roleTarget Role.ops) := by
  have h := claim_C4_amended 0 0 opsStuckState
    { role := .ops, motsIdx := 0, productivity := 1,
      available := [1, 2, 3, 4, 5], onStory := some 0 }
    opsStuckAfter false rfl rfl
  exact ⟨h.2.2 rfl, h.1⟩

/-! ## C8: the Ops batch deployment -/

theorem lookupAssoc_setAssoc_self (l : List (String × Int)) (k : String)
    (v0 v : Int) (h : lookupAssoc l k = some v0) :
    lookupAssoc (setAssoc l k v) k = some v := by
  induction l with
  | nil => simp [lookupAssoc] at h
  | cons p rest ih =>
    cases hk : (p.1 == k)
    · have hrest : lookupAssoc rest k = some v0 := by
        have hslide : lookupAssoc (p :: rest) k = lookupAssoc rest k := by
          simp [lookupAssoc, List.find?, hk]
        rw [hslide] at h
        exact h
      have hstep : lookupAssoc (setAssoc (p :: rest) k v) k =
          lookupAssoc (setAssoc rest k v) k := by
        simp [lookupAssoc, setAssoc, List.find?, hk]
      rw [hstep]
      exact ih hrest
    · simp [lookupAssoc, setAssoc, List.find?, hk]

/-- C8.  When an Ops capability runs `progressOneHour` (it holds the lock it
acquired on pick-up), every backlog item currently in status resolved — not
only the one it holds — has its resolved-effort bucket decremented by the
capability's productivity in that same hour, and any such item whose
remaining effort reaches zero or below transitions to deployed with its
assignee cleared (whether or not it had one); items that stay positive stay
resolved with their assignee untouched. -/
theorem claim_C8_ops_batch (capIdx mainIdx : Nat) (st : SimState)
    (cap : Capability) (st' : SimState) (d : Bool)
    (hcap : st.caps[capIdx]? = some cap) (hrole : cap.role = .ops)
    (h : progressOneHour capIdx mainIdx st = .ok (st', d)) :
    ∀ (j : Nat) (s : UserStory), st.backlog[j]? = some s →
      s.status = "resolved" →
      ∃ (v : Int) (s' : UserStory),
        lookupAssoc s.remaining "resolved" = some v ∧
        st'.backlog[j]? = some s' ∧
        lookupAssoc s'.remaining "resolved" = some (v - cap.productivity) ∧
        (v - cap.productivity ≤ 0 →
          s'.status = "deployed" ∧ s'.assignedTo = none) ∧
        (0 < v - cap.productivity →
          s'.status = "resolved" ∧ s'.assignedTo = s.assignedTo) := by
  intro j s hs hstat
  unfold progressOneHour at h
  rw [hcap] at h
  have hnd := progress_indices_nodup cap.role st.backlog mainIdx
  have hmem : j ∈ mainIdx :: relatedIndices cap.role st.backlog mainIdx := by
    by_cases hjm : j = mainIdx
    · exact hjm ▸ List.mem_cons_self _ _
    · refine List.mem_cons_of_mem _ ?_
      rw [hrole]
      exact (mem_relatedIndices_ops st.backlog mainIdx j).mpr ⟨hjm, s, hs, hstat⟩
  obtain ⟨s0, s', hs0, hprog, hpost⟩ :=
    progressList_touched cap.role cap.productivity _ st true st' d h hnd j hmem
  rw [hs] at hs0
  cases hs0
  unfold UserStory.progress at hprog
  rw [nextStatus_eq_roleTarget, hrole, hstat] at hprog
  split at hprog
  · cases hprog
  · rename_i v hv
    refine ⟨v, s', hv, hpost, ?_, ?_, ?_⟩
    · by_cases hle : v - cap.productivity ≤ 0
      · rw [if_pos hle] at hprog
        cases hprog
        exact lookupAssoc_setAssoc_self _ _ _ _ hv
      · rw [if_neg hle] at hprog
        cases hprog
        exact lookupAssoc_setAssoc_self _ _ _ _ hv
    · intro hle
      rw [if_pos hle] at hprog
      cases hprog
      exact ⟨rfl, rfl⟩
    · intro hpos
      rw [if_neg (by omega)] at hprog
      cases hprog
      exact ⟨rfl, rfl⟩

/-- Witness for C8 on the stuck-Ops fixture: the related resolved story 1
(never the held one) is decremented from 5 to 4 and stays resolved. -/
theorem claim_C8_ops_batch_witness :
    ∃ (v : Int) (s' : UserStory),
      lookupAssoc storyR1.remaining "resolved" = some v ∧
      opsStuckAfter.backlog[1]? = some s' ∧
      lookupAssoc s'.remaining "resolved" = some (v - 1) ∧
      (v - 1 ≤ 0 → s'.status = "deployed" ∧ s'.assignedTo = none) ∧
      (0 < v - 1 → s'.status = "resolved" ∧
        s'.assignedTo = storyR1.assignedTo) := by
  have h := claim_C8_ops_batch 0 0 opsStuckState
    { role := .ops, motsIdx := 0, productivity := 1,
      available := [1, 2, 3, 4, 5], onStory := some 0 }
    opsStuckAfter false rfl rfl rfl 1 storyR1 rfl rfl
  exact h

/-! ## C10: lifecycle monotonicity -/

theorem acceptStatus_eq (r : Role) (x : String) :
    acceptStatus r x = true ↔ x = acceptSrc r := by
  cases r <;> simp [acceptStatus, acceptSrc]

/-- What a successful scan guarantees about the picked story. -/
theorem scanPick_sound (role : Role) (sys : System) (backlog : List UserStory)
    (i : Nat) (s : UserStory) (h : scanPick role sys backlog = some (i, s)) :
    backlog[i]? = some s ∧ s.assignedTo = none ∧ s.status = acceptSrc role ∧
    areResourcesAvailable role sys = true := by
  rw [scanPick] at h
  rcases scanPickAux_sound role sys backlog.enum none i s h with ⟨hmem, hcand⟩ | hbad
  · simp only [isCandidate, Bool.and_eq_true] at hcand
    refine ⟨List.mk_mem_enum_iff_getElem?.mp hmem, ?_, ?_, hcand.2⟩
    · exact Option.isNone_iff_eq_none.mp hcand.1.1
    · exact (acceptStatus_eq role s.status).mp hcand.1.2
  · cases hbad

/-- The availability flag after reserving resources. -/
theorem reserveResources_available (role : Role) (name : String)
    (sys sys' : System) (h : reserveResources role name sys = .ok sys') :
    (role = .ops → sys'.available = false) ∧
    (role ≠ .ops → sys'.available = sys.available) := by
  cases role with
  | dev =>
    cases h
    exact ⟨fun hc => Role.noConfusion hc, fun _ => rfl⟩
  | ops =>
    cases h
    exact ⟨fun _ => rfl, fun hc => absurd rfl hc⟩
  | qa =>
    have h' : sys.logon name = .ok sys' := h
    unfold System.logon at h'
    split at h'
    · cases h'
      exact ⟨fun hc => Role.noConfusion hc, fun _ => rfl⟩
    · cases h'

/-- The availability flag after releasing resources. -/
theorem releaseResources_available (role : Role) (name : String)
    (sys sys' : System) (h : releaseResources role name sys = .ok sys') :
    (role = .ops → sys'.available = true) ∧
    (role ≠ .ops → sys'.available = sys.available) := by
  cases role with
  | dev =>
    cases h
    exact ⟨fun hc => Role.noConfusion hc, fun _ => rfl⟩
  | ops =>
    cases h
    exact ⟨fun _ => rfl, fun hc => absurd rfl hc⟩
  | qa =>
    have h' : sys.logoff name = .ok sys' := h
    unfold System.logoff at h'
    split at h'
    · split at h'
      · cases h'
        exact ⟨fun hc => Role.noConfusion hc, fun _ => rfl⟩
      · cases h'
    · cases h'

/-- An hour of progress either leaves a story's status and assignee alone or
moves it to the target status and clears the assignee. -/
theorem progress_effect (s : UserStory) (prod : Int) (target : String)
    (s' : UserStory) (h : s.progress prod target = .ok s') :
    (s'.status = s.status ∧ s'.assignedTo = s.assignedTo) ∨
    (s'.status = target ∧ s'.assignedTo = none) := by
  unfold UserStory.progress at h
  split at h
  · cases h
  · split at h
    · cases h
      exact Or.inr ⟨rfl, rfl⟩
    · cases h
      exact Or.inl ⟨rfl, rfl⟩

theorem statusMonotone_refl (st : SimState) : StatusMonotone st st :=
  ⟨rfl, fun j s s' hs hs' => by
    rw [hs] at hs'
    cases hs'
    exact Nat.le_refl _⟩

theorem statusMonotone_trans {a b c : SimState} (h1 : StatusMonotone a b)
    (h2 : StatusMonotone b c) : StatusMonotone a c := by
  refine ⟨h2.1.trans h1.1, fun j s s' hs hs' => ?_⟩
  have hlen : b.backlog.length = a.backlog.length := h1.1
  have hj : j < b.backlog.length := by
    have hja : j < a.backlog.length := by
      by_contra hc
      simp [List.getElem?_eq_none (Nat.le_of_not_lt hc)] at hs
    omega
  have hb : b.backlog[j]? = some b.backlog[j] := List.getElem?_eq_getElem hj
  exact Nat.le_trans (h1.2 j s _ hs hb) (h2.2 j _ s' hb hs')

theorem preservesStories_statusMonotone {a b : SimState}
    (h : PreservesStories a b) : StatusMonotone a b := by
  refine ⟨h.1, fun j s s' hs hs' => ?_⟩
  obtain ⟨s2, hs2, e1, -, -⟩ := h.2 j s hs
  rw [hs2] at hs'
  cases hs'
  rw [e1]

/-- Complete case analysis of `assignStoryFromBacklog`: either nothing
happened (no candidate, or a dry run), or a real pick with its full effect
on the state. -/
theorem assignStoryFromBacklog_spec (capIdx : Nat) (st : SimState) (d : Bool)
    (o : Option Nat) (st' : SimState) (cap : Capability)
    (hcap : st.caps[capIdx]? = some cap)
    (h : assignStoryFromBacklog capIdx st d = .ok (o, st')) :
    (st' = st ∧ (o = none ∨ d = true)) ∨
    (∃ (i : Nat) (s : UserStory) (m : MemberOfTechnicalStaff) (sys' : System),
      o = some i ∧ d = false ∧
      scanPick cap.role st.system st.backlog = some (i, s) ∧
      st.motss[cap.motsIdx]? = some m ∧
      reserveResources cap.role m.name st.system = .ok sys' ∧
      st' = { backlog := modifyAt st.backlog i
                (fun s0 => { s0 with assignedTo := some capIdx }),
              caps := modifyAt st.caps capIdx
                (fun c => { c with onStory := some i }),
              motss := modifyAt st.motss cap.motsIdx
                (fun mm => { mm with busy := some capIdx }),
              system := sys' }) := by
  unfold assignStoryFromBacklog at h
  split at h
  · rename_i hnone
    rw [hcap] at hnone
    cases hnone
  · rename_i cap0 hcap0
    rw [hcap] at hcap0
    injection hcap0 with hce
    subst hce
    split at h
    · cases h
      exact Or.inl ⟨rfl, Or.inl rfl⟩
    · rename_i pick hpick
      split at h
      · cases h
        rename_i hd
        exact Or.inl ⟨rfl, Or.inr hd⟩
      · rename_i hd
        split at h
        · cases h
        · rename_i m hm
          split at h
          · cases h
          · rename_i sys' hres
            cases h
            exact Or.inr ⟨pick.1, pick.2, m, sys', rfl,
              Bool.eq_false_iff.mpr hd, by rw [hpick], hm, hres, rfl⟩

/-- Complete case analysis of `grabNextStory`. -/
theorem grabNextStory_spec (capIdx : Nat) (st : SimState) (d : Bool)
    (o : Option Nat) (st' : SimState) (cap : Capability)
    (hcap : st.caps[capIdx]? = some cap)
    (h : grabNextStory capIdx st d = .ok (o, st')) :
    (st' = st ∧ (o = cap.onStory ∨ o = none ∨ d = true)) ∨
    (∃ (i : Nat) (s : UserStory) (m : MemberOfTechnicalStaff) (sys' : System),
      cap.onStory = none ∧ o = some i ∧ d = false ∧
      scanPick cap.role st.system st.backlog = some (i, s) ∧
      st.motss[cap.motsIdx]? = some m ∧
      reserveResources cap.role m.name st.system = .ok sys' ∧
      st' = { backlog := modifyAt st.backlog i
                (fun s0 => { s0 with assignedTo := some capIdx }),
              caps := modifyAt st.caps capIdx
                (fun c => { c with onStory := some i }),
              motss := modifyAt st.motss cap.motsIdx
                (fun mm => { mm with busy := some capIdx }),
              system := sys' }) := by
  unfold grabNextStory at h
  split at h
  · rename_i hnone
    rw [hcap] at hnone
    cases hnone
  · rename_i cap0 hcap0
    rw [hcap] at hcap0
    injection hcap0 with hce
    subst hce
    split at h
    · rename_i s0 hs0
      cases h
      exact Or.inl ⟨rfl, Or.inl hs0.symm⟩
    · rename_i hnone
      split at h
      · cases h
      · split at h
        · cases h
          exact Or.inl ⟨rfl, Or.inr (Or.inl rfl)⟩
        · rcases assignStoryFromBacklog_spec capIdx st d o st' cap hcap h with
            ⟨he, ho⟩ | ⟨i, s, m, sys', ho, hd, hscan, hm, hres, he⟩
          · exact Or.inl ⟨he, Or.inr ho⟩
          · exact Or.inr ⟨i, s, m, sys', hnone, ho, hd, hscan, hm, hres, he⟩

/-- No capability currently holds a story the scan just picked: picked
stories are unassigned, and the only unassigned held stories are Ops
leftovers at `deployed`, which only QA would accept — but while an Ops
capability is on a story the environment is locked, so QA's resource check
fails and the scan cannot have picked anything. -/
theorem no_holder_of_scanned (st : SimState) (cap : Capability) (i : Nat)
    (s : UserStory) (hg : GoodState st)
    (hs : st.backlog[i]? = some s) (hsa : s.assignedTo = none)
    (hstat : s.status = acceptSrc cap.role)
    (hav : areResourcesAvailable cap.role st.system = true) :
    ∀ (c : Nat) (cap0 : Capability), st.caps[c]? = some cap0 →
      cap0.onStory = some i → False := by
  intro c cap0 hc0 hon
  obtain ⟨s0, hs0, hfacts⟩ := hg.2 c cap0 hc0 i hon
  rw [hs] at hs0
  injection hs0 with hse
  subst hse
  rcases hfacts with ⟨-, -, ha⟩ | ⟨-, -, ha⟩ | ⟨hrole, ⟨-, ha⟩ | hdep⟩
  · rw [hsa] at ha
    cases ha
  · rw [hsa] at ha
    cases ha
  · rw [hsa] at ha
    cases ha
  · -- the held story is an Ops leftover at `deployed`
    have hacc : acceptSrc cap.role = "deployed" := by rw [← hstat, hdep]
    have hlock : st.system.available = false :=
      hg.1.ops_locked c cap0 hc0 hrole (by simp [hon])
    cases hr : cap.role with
    | dev =>
      rw [hr] at hacc
      exact absurd hacc (by decide)
    | ops =>
      rw [hr] at hacc
      exact absurd hacc (by decide)
    | qa =>
      rw [hr] at hav
      simp [areResourcesAvailable, System.isAvailable, hlock] at hav

/-- One `grabNextStory` call preserves the hour-boundary invariant, links
the returned story to the capability, and leaves other capabilities'
entries alone. -/
theorem grabNextStory_good (capIdx : Nat) (st : SimState) (d : Bool)
    (o : Option Nat) (st' : SimState) (cap : Capability)
    (hcap : st.caps[capIdx]? = some cap) (hg : GoodState st)
    (h : grabNextStory capIdx st d = .ok (o, st')) :
    GoodState st' ∧
    (∀ i : Nat, o = some i → d = false →
      ∃ cap' : Capability, st'.caps[capIdx]? = some cap' ∧
        cap'.onStory = some i) ∧
    (∀ (c : Nat) (cap0 : Capability), c ≠ capIdx → st.caps[c]? = some cap0 →
      st'.caps[c]? = some cap0) ∧
    st'.caps.length = st.caps.length := by
  rcases grabNextStory_spec capIdx st d o st' cap hcap h with
    ⟨rfl, ho⟩ | ⟨i, s, m, sys', hnone, ho, hd, hscan, hm, hres, rfl⟩
  · refine ⟨hg, ?_, fun c cap0 _ hc => hc, rfl⟩
    intro i hoi hdf
    rcases ho with h1 | h1 | h1
    · exact ⟨cap, hcap, by rw [← h1, hoi]⟩
    · rw [h1] at hoi
      cases hoi
    · rw [h1] at hdf
      cases hdf
  · -- a real pick happened
    obtain ⟨hs, hsa, hstat, hav⟩ := scanPick_sound cap.role st.system st.backlog i s hscan
    have hnoh := no_holder_of_scanned st cap i s hg hs hsa hstat hav
    have hcap' : (modifyAt st.caps capIdx
        (fun c => { c with onStory := some i }))[capIdx]? =
        some { cap with onStory := some i } :=
      getElem?_modifyAt_self _ _ _ _ hcap
    have hother : ∀ c : Nat, c ≠ capIdx →
        (modifyAt st.caps capIdx (fun c0 => { c0 with onStory := some i }))[c]? =
        st.caps[c]? :=
      fun c hc => getElem?_modifyAt_ne _ _ _ _ (fun he => hc he.symm)
    have hbacklog_self : (modifyAt st.backlog i
        (fun s0 => { s0 with assignedTo := some capIdx }))[i]? =
        some { s with assignedTo := some capIdx } :=
      getElem?_modifyAt_self _ _ _ _ hs
    have hbacklog_other : ∀ j : Nat, j ≠ i →
        (modifyAt st.backlog i (fun s0 => { s0 with assignedTo := some capIdx }))[j]? =
        st.backlog[j]? :=
      fun j hj => getElem?_modifyAt_ne _ _ _ _ (fun he => hj he.symm)
    refine ⟨⟨?_, ?_⟩, ?_, ?_, ?_⟩
    · -- CapsGood
      refine ⟨?_, ?_, ?_⟩
      · -- ops_locked
        intro c cap0 hc0 hrole hons
        by_cases hcc : c = capIdx
        · subst hcc
          rw [hcap'] at hc0
          injection hc0 with hce
          subst hce
          exact (reserveResources_available cap.role m.name st.system sys' hres).1 hrole
        · rw [hother c hcc] at hc0
          have hlock : st.system.available = false :=
            hg.1.ops_locked c cap0 hc0 hrole hons
          cases hr : cap.role with
          | dev =>
            have := (reserveResources_available cap.role m.name st.system sys' hres).2
              (by rw [hr]; exact fun hc => Role.noConfusion hc)
            rw [this, hlock]
          | ops =>
            exact (reserveResources_available cap.role m.name st.system sys' hres).1 hr
          | qa =>
            rw [hr] at hav
            simp [areResourcesAvailable, System.isAvailable, hlock] at hav
      · -- distinct_stories
        intro c1 c2 cap1 cap2 i0 hne hc1 hc2 hon1 hon2
        by_cases hc1e : c1 = capIdx
        · subst hc1e
          rw [hcap'] at hc1
          injection hc1 with hce
          subst hce
          simp only at hon1
          injection hon1 with hi0
          subst hi0
          have hc2e : c2 ≠ c1 := fun hc => hne hc.symm
          rw [hother c2 hc2e] at hc2
          exact hnoh c2 cap2 hc2 hon2
        · by_cases hc2e : c2 = capIdx
          · subst hc2e
            rw [hcap'] at hc2
            injection hc2 with hce
            subst hce
            simp only at hon2
            injection hon2 with hi0
            subst hi0
            rw [hother c1 hc1e] at hc1
            exact hnoh c1 cap1 hc1 hon1
          · rw [hother c1 hc1e] at hc1
            rw [hother c2 hc2e] at hc2
            exact hg.1.distinct_stories c1 c2 cap1 cap2 i0 hne hc1 hc2 hon1 hon2
      · -- single_ops
        intro c1 c2 cap1 cap2 hc1 hc2 hr1 hr2 hons1 hons2
        by_cases hc1e : c1 = capIdx
        · by_cases hc2e : c2 = capIdx
          · rw [hc1e, hc2e]
          · exfalso
            subst hc1e
            rw [hcap'] at hc1
            injection hc1 with hce
            rw [hother c2 hc2e] at hc2
            have hlock : st.system.available = false :=
              hg.1.ops_locked c2 cap2 hc2 hr2 hons2
            have hrole : cap.role = .ops := by
              rw [← hce] at hr1
              exact hr1
            rw [hrole] at hav
            simp [areResourcesAvailable, System.isAvailable, System.hasLogons,
              hlock] at hav
        · by_cases hc2e : c2 = capIdx
          · exfalso
            subst hc2e
            rw [hcap'] at hc2
            injection hc2 with hce
            rw [hother c1 hc1e] at hc1
            have hlock : st.system.available = false :=
              hg.1.ops_locked c1 cap1 hc1 hr1 hons1
            have hrole : cap.role = .ops := by
              rw [← hce] at hr2
              exact hr2
            rw [hrole] at hav
            simp [areResourcesAvailable, System.isAvailable, System.hasLogons,
              hlock] at hav
          · rw [hother c1 hc1e] at hc1
            rw [hother c2 hc2e] at hc2
            exact hg.1.single_ops c1 c2 cap1 cap2 hc1 hc2 hr1 hr2 hons1 hons2
    · -- held_ok
      intro c cap0 hc0
      by_cases hcc : c = capIdx
      · subst hcc
        rw [hcap'] at hc0
        injection hc0 with hce
        subst hce
        intro i0 hon
        simp only at hon
        injection hon with hi0
        subst hi0
        refine ⟨{ s with assignedTo := some c }, hbacklog_self, ?_⟩
        cases hr : cap.role with
        | dev =>
          refine Or.inl ⟨rfl, ?_, rfl⟩
          rw [hstat, hr]
          rfl
        | qa =>
          refine Or.inr (Or.inl ⟨rfl, ?_, rfl⟩)
          rw [hstat, hr]
          rfl
        | ops =>
          refine Or.inr (Or.inr ⟨rfl, Or.inl ⟨?_, rfl⟩⟩)
          rw [hstat, hr]
          rfl
      · rw [hother c hcc] at hc0
        intro i0 hon
        obtain ⟨s0, hs0, hfacts⟩ := hg.2 c cap0 hc0 i0 hon
        by_cases hii : i0 = i
        · exact absurd hon (by subst hii; exact fun hc => hnoh c cap0 hc0 hc)
        · exact ⟨s0, by rw [hbacklog_other i0 hii]; exact hs0, hfacts⟩
    · -- linkage of the new pick
      intro i0 hoi hdf
      rw [ho] at hoi
      injection hoi with hi0
      subst hi0
      exact ⟨{ cap with onStory := some i }, hcap', rfl⟩
    · -- other capabilities untouched
      intro c cap0 hcc hc
      rw [hother c hcc]
      exact hc
    · simpa using modifyAt_length st.caps capIdx (fun c => { c with onStory := some i })

/-- The pick-up loop preserves the hour-boundary invariant, produces
assignments linked to their capabilities with duplicate-free capability
indices, and leaves story statuses and effort untouched. -/
theorem pickUpList_good (dow : Nat) :
    ∀ (idxs : List Nat) (asgns0 : List HourAssignment) (pp : Bool)
      (st : SimState) (out : List HourAssignment × Bool × SimState),
      pickUpList dow idxs asgns0 pp st = .ok out →
      GoodState st →
      AsgnsLinked st asgns0 →
      ((asgns0.map (fun a => a.capIdx)) ++ idxs).Nodup →
      GoodState out.2.2 ∧
      AsgnsLinked out.2.2 out.1 ∧
      (out.1.map (fun a => a.capIdx)).Nodup ∧
      PreservesStories st out.2.2 := by
  intro idxs
  induction idxs with
  | nil =>
    intro asgns0 pp st out h hg hl hnd
    cases h
    refine ⟨hg, hl, ?_, preservesStories_refl st⟩
    simpa using hnd
  | cons c rest ih =>
    intro asgns0 pp st out h hg hl hnd
    rw [pickUpList] at h
    split at h
    · cases h
    · rename_i cap hcap
      split at h
      · cases h
      · rename_i story st' heq
        obtain ⟨hg', hlinknew, hothers, hlen⟩ :=
          grabNextStory_good c st _ story st' cap hcap hg heq
        have hpres : PreservesStories st st' := grabNextStory_stories _ _ _ _ _ heq
        have hc_not_in : c ∉ asgns0.map (fun a => a.capIdx) := by
          intro hcmem
          have hdisj := (List.nodup_append.mp hnd).2.2
          exact hdisj hcmem (List.mem_cons_self _ _)
        have hl' : AsgnsLinked st' asgns0 := by
          intro a ha
          obtain ⟨cap0, hc0, hon0⟩ := hl a ha
          refine ⟨cap0, ?_, hon0⟩
          refine hothers a.capIdx cap0 ?_ hc0
          intro hac
          exact hc_not_in (hac ▸ List.mem_map_of_mem (fun a0 => a0.capIdx) ha)
        have hnd_rest : ((asgns0.map (fun a => a.capIdx)) ++ rest).Nodup := by
          refine List.Nodup.sublist ?_ hnd
          exact List.Sublist.append_left (List.sublist_cons_self _ _) _
        split at h
        · -- no story found
          obtain ⟨g1, g2, g3, g4⟩ := ih _ _ _ _ h hg' hl' hnd_rest
          exact ⟨g1, g2, g3, preservesStories_trans hpres g4⟩
        · split at h
          · -- story found, capability available: append the assignment
            rename_i i havail
            have hlinked_new : AsgnsLinked st' (asgns0 ++ [⟨c, i⟩]) := by
              intro a ha
              rcases List.mem_append.mp ha with ha0 | ha1
              · exact hl' a ha0
              · have ha2 : a = HourAssignment.mk c i := by simpa using ha1
                subst ha2
                obtain ⟨cap', hcap', hon'⟩ := hlinknew i rfl (by
                  rw [havail]
                  rfl)
                exact ⟨cap', hcap', hon'⟩
            have hnd' : (((asgns0 ++ [HourAssignment.mk c i]).map
                (fun a => a.capIdx)) ++ rest).Nodup := by
              simp only [List.map_append, List.map_cons, List.map_nil,
                List.singleton_append, List.append_assoc]
              simpa using hnd
            obtain ⟨g1, g2, g3, g4⟩ := ih _ _ _ _ h hg' hlinked_new hnd'
            exact ⟨g1, g2, g3, preservesStories_trans hpres g4⟩
          · -- story found but the capability is off shift today
            obtain ⟨g1, g2, g3, g4⟩ := ih _ _ _ _ h hg' hl' hnd_rest
            exact ⟨g1, g2, g3, preservesStories_trans hpres g4⟩

/-- Any held story's status is at most the holding role's target in the
lifecycle order. -/
theorem heldFit_status_le (st : SimState) (c : Nat) (cap : Capability)
    (hf : HeldFit st c cap) (i : Nat) (hon : cap.onStory = some i)
    (s : UserStory) (hs : st.backlog[i]? = some s) :
    statusIdx s.status ≤ statusIdx (roleTarget cap.role) := by
  obtain ⟨s0, hs0, hfacts⟩ := hf i hon
  rw [hs] at hs0
  injection hs0 with he
  subst he
  rcases hfacts with ⟨hr, hstat, -⟩ | ⟨hr, hstat, -⟩ | ⟨hr, hdis⟩
  · rw [hr, hstat]
    decide
  · rw [hr, hstat]
    decide
  · rcases hdis with ⟨hstat, -⟩ | hstat <;> rw [hr, hstat] <;> decide

/-- The progress loop never decreases any story's lifecycle position as long
as every listed story starts at or below the role's target. -/
theorem progressList_monotone (role : Role) (prod : Int) (l : List Nat)
    (st : SimState) (d : Bool) (st' : SimState) (d' : Bool)
    (h : progressList role prod l st d = .ok (st', d')) (hnd : l.Nodup)
    (hok : ∀ i ∈ l, ∀ s : UserStory, st.backlog[i]? = some s →
      statusIdx s.status ≤ statusIdx (roleTarget role)) :
    StatusMonotone st st' := by
  refine ⟨(progressList_frame role prod l st d st' d' h).2.2.2, ?_⟩
  intro j s s' hs hs'
  by_cases hj : j ∈ l
  · obtain ⟨s0, s0', h0, hp, h0'⟩ :=
      progressList_touched role prod l st d st' d' h hnd j hj
    rw [hs] at h0
    injection h0 with he
    subst he
    rw [hs'] at h0'
    injection h0' with he'
    subst he'
    rcases progress_effect _ _ _ _ hp with ⟨he1, -⟩ | ⟨he1, -⟩
    · rw [he1]
    · rw [he1, nextStatus_eq_roleTarget]
      exact hok j hj s hs
  · rw [progressList_untouched role prod l st d st' d' h j hj, hs] at hs'
    injection hs' with he
    subst he
    exact Nat.le_refl _

/-- An hour of a capability's progress leaves any other index alone when the
story there is not resolved (or the capability is not Ops). -/
theorem progressOneHour_untouched (capIdx mainIdx : Nat) (st : SimState)
    (cap : Capability) (st' : SimState) (d : Bool)
    (hcap : st.caps[capIdx]? = some cap)
    (h : progressOneHour capIdx mainIdx st = .ok (st', d))
    (j : Nat) (hne : j ≠ mainIdx)
    (hnr : ∀ s : UserStory, st.backlog[j]? = some s →
      s.status ≠ "resolved" ∨ cap.role ≠ .ops) :
    st'.backlog[j]? = st.backlog[j]? := by
  unfold progressOneHour at h
  rw [hcap] at h
  apply progressList_untouched _ _ _ _ _ _ _ h
  intro hmem
  rcases List.mem_cons.mp hmem with heq | hrel
  · exact hne heq
  · cases hr : cap.role with
    | dev =>
      rw [hr] at hrel
      simp [relatedIndices] at hrel
    | qa =>
      rw [hr] at hrel
      simp [relatedIndices] at hrel
    | ops =>
      rw [hr] at hrel
      obtain ⟨hne2, s, hs, hstat⟩ := (mem_relatedIndices_ops _ _ _).mp hrel
      rcases hnr s hs with hx | hx
      · exact hx hstat
      · exact hx hr

/-- The main story is progressed exactly once from its pre-hour value. -/
theorem progressOneHour_main (capIdx mainIdx : Nat) (st : SimState)
    (cap : Capability) (st' : SimState) (d : Bool)
    (hcap : st.caps[capIdx]? = some cap)
    (h : progressOneHour capIdx mainIdx st = .ok (st', d)) :
    ∃ s s' : UserStory, st.backlog[mainIdx]? = some s ∧
      s.progress cap.productivity (nextStatus cap.role s.status) = .ok s' ∧
      st'.backlog[mainIdx]? = some s' := by
  unfold progressOneHour at h
  rw [hcap] at h
  exact progressList_touched _ _ _ _ _ _ _ h (progress_indices_nodup _ _ _)
    mainIdx (List.mem_cons_self _ _)

/-- One capability's hour of progress is lifecycle-monotone as long as its
main story starts at or below its role's target. -/
theorem progressOneHour_monotone (capIdx mainIdx : Nat) (st : SimState)
    (cap : Capability) (st' : SimState) (d : Bool)
    (hcap : st.caps[capIdx]? = some cap)
    (h : progressOneHour capIdx mainIdx st = .ok (st', d))
    (hmain : ∀ s : UserStory, st.backlog[mainIdx]? = some s →
      statusIdx s.status ≤ statusIdx (roleTarget cap.role)) :
    StatusMonotone st st' := by
  unfold progressOneHour at h
  rw [hcap] at h
  apply progressList_monotone _ _ _ _ _ _ _ h (progress_indices_nodup _ _ _)
  intro i hi s hs
  rcases List.mem_cons.mp hi with heq | hrel
  · subst heq
    exact hmain s hs
  · cases hr : cap.role with
    | dev =>
      rw [hr] at hrel
      simp [relatedIndices] at hrel
    | qa =>
      rw [hr] at hrel
      simp [relatedIndices] at hrel
    | ops =>
      rw [hr] at hrel
      obtain ⟨-, s2, hs2, hstat⟩ := (mem_relatedIndices_ops _ _ _).mp hrel
      rw [hs] at hs2
      injection hs2 with he
      subst he
      rw [hstat]
      decide

/-- A Developer or QA hour that is not done leaves its main story's status
and assignee untouched (there are no related stories, so done is exactly the
main story reaching the target). -/
theorem progressOneHour_done_false (capIdx mainIdx : Nat) (st : SimState)
    (cap : Capability) (st' : SimState) (d : Bool)
    (hcap : st.caps[capIdx]? = some cap)
    (h : progressOneHour capIdx mainIdx st = .ok (st', d))
    (hd : d = false) (hrole : cap.role ≠ .ops) :
    ∃ s s' : UserStory, st.backlog[mainIdx]? = some s ∧
      st'.backlog[mainIdx]? = some s' ∧
      s'.status = s.status ∧ s'.assignedTo = s.assignedTo := by
  obtain ⟨s, s', hs, hp, hs'⟩ :=
    progressOneHour_main capIdx mainIdx st cap st' d hcap h
  refine ⟨s, s', hs, hs', ?_⟩
  have hrel : relatedIndices cap.role st.backlog mainIdx = [] := by
    cases hr : cap.role with
    | dev => rfl
    | qa => rfl
    | ops => exact absurd hr hrole
  unfold progressOneHour at h
  rw [hcap] at h
  have h2 : progressList cap.role cap.productivity
      (mainIdx :: relatedIndices cap.role st.backlog mainIdx) st true =
      .ok (st', d) := h
  rw [hrel] at h2
  have hdone := progressList_done cap.role cap.productivity [mainIdx] st true
    st' d h2 (by simp)
  rcases progress_effect _ _ _ _ hp with ⟨he1, he2⟩ | ⟨he1, he2⟩
  · exact ⟨he1, he2⟩
  · exfalso
    rw [hd] at hdone
    have : ¬ (True ∧ ∀ i ∈ [mainIdx], ∀ s0 : UserStory,
        st'.backlog[i]? = some s0 → s0.status = roleTarget cap.role) := by
      intro hc
      have := hdone.mpr (by simpa using hc.2)
      cases this
    apply this
    refine ⟨trivial, ?_⟩
    intro i hi s0 hs0
    have hie : i = mainIdx := by simpa using hi
    subst hie
    rw [hs'] at hs0
    injection hs0 with he
    subst he
    rw [he1, nextStatus_eq_roleTarget]

/-- A story held by a capability other than the one progressing is left
alone by that hour of progress. -/
theorem progressOneHour_story_untouched
    (st1 stM stM' : SimState) (hcg : CapsGood st1) (hcapsM : stM.caps = st1.caps)
    (aC aS : Nat) (capA : Capability) (d : Bool)
    (hcapA : st1.caps[aC]? = some capA) (honA : capA.onStory = some aS)
    (h : progressOneHour aC aS stM = .ok (stM', d))
    (c : Nat) (cap : Capability) (hc : st1.caps[c]? = some cap)
    (hCne : c ≠ aC) (i : Nat) (hon : cap.onStory = some i)
    (s : UserStory) (hsM : stM.backlog[i]? = some s)
    (hfacts : (cap.role = .dev ∧ s.status = "active" ∧ s.assignedTo = some c) ∨
       (cap.role = .qa ∧ s.status = "deployed" ∧ s.assignedTo = some c) ∨
       (cap.role = .ops ∧
         ((s.status = "resolved" ∧ s.assignedTo = some c) ∨
          s.status = "deployed"))) :
    stM'.backlog[i]? = stM.backlog[i]? := by
  have hcapAM : stM.caps[aC]? = some capA := by
    rw [hcapsM]
    exact hcapA
  apply progressOneHour_untouched aC aS stM capA stM' d hcapAM h i ?_ ?_
  · intro hie
    subst hie
    exact hcg.distinct_stories c aC cap capA i hCne hc hcapA hon honA
  · intro s2 hs2
    rw [hsM] at hs2
    injection hs2 with he
    subst he
    rcases hfacts with ⟨hr, hstat, -⟩ | ⟨hr, hstat, -⟩ | ⟨hr, hdis⟩
    · left
      rw [hstat]
      decide
    · left
      rw [hstat]
      decide
    · rcases hdis with ⟨hstat, -⟩ | hstat
      · right
        intro hroleA
        exact hCne (hcg.single_ops c aC cap capA hc hcapA hr hroleA
          (by simp [hon]) (by simp [honA]))
      · left
        rw [hstat]
        decide

/-- The progress phase: processed in assignment order, it keeps capability
data and the environment untouched, never decreases any story's lifecycle
position, and leaves every capability either flagged done (to be released)
or with a held story that still fits its role. -/
theorem progressAssignments_master (st1 : SimState) (hg1 : GoodState st1) :
    ∀ (rest : List HourAssignment) (ds0 : List (HourAssignment × Bool))
      (stM : SimState) (out : List (HourAssignment × Bool) × SimState),
      progressAssignments rest ds0 stM = .ok out →
      stM.caps = st1.caps →
      stM.system = st1.system →
      AsgnsLinked st1 rest →
      ((ds0.map (fun p => p.1.capIdx)) ++ rest.map (fun a => a.capIdx)).Nodup →
      (∀ a ∈ rest, stM.backlog[a.storyIdx]? = st1.backlog[a.storyIdx]?) →
      (∀ (c : Nat) (cap : Capability), st1.caps[c]? = some cap →
        (∀ a ∈ rest, a.capIdx ≠ c) →
        ((∃ p ∈ ds0, p.1.capIdx = c ∧ p.2 = true) ∨ HeldFit stM c cap)) →
      (∀ p ∈ ds0, ∃ cap : Capability, st1.caps[p.1.capIdx]? = some cap ∧
        cap.onStory = some p.1.storyIdx) →
      StatusMonotone st1 stM →
      (out.2.caps = st1.caps ∧ out.2.system = st1.system ∧
       StatusMonotone st1 out.2 ∧
       (∀ (c : Nat) (cap : Capability), st1.caps[c]? = some cap →
         ((∃ p ∈ out.1, p.1.capIdx = c ∧ p.2 = true) ∨ HeldFit out.2 c cap)) ∧
       (∀ p ∈ out.1, ∃ cap : Capability, st1.caps[p.1.capIdx]? = some cap ∧
         cap.onStory = some p.1.storyIdx) ∧
       (out.1.map (fun p => p.1.capIdx)).Nodup) := by
  intro rest
  induction rest with
  | nil =>
    intro ds0 stM out h hcaps hsys hlink hnd hmains hready hds0 hmono
    cases h
    exact ⟨hcaps, hsys, hmono,
      fun c cap hc => hready c cap hc (fun a ha => absurd ha (List.not_mem_nil a)),
      hds0, by simpa using hnd⟩
  | cons a rest' ih =>
    intro ds0 stM out h hcaps hsys hlink hnd hmains hready hds0 hmono
    rw [progressAssignments] at h
    split at h
    · cases h
    · rename_i stM' d heq
      obtain ⟨capA, hcapA, honA⟩ := hlink a (List.mem_cons_self _ _)
      have hcapAM : stM.caps[a.capIdx]? = some capA := by
        rw [hcaps]
        exact hcapA
      obtain ⟨hfsys, hfcaps, hfmots, hflen⟩ :=
        progressOneHour_frame a.capIdx a.storyIdx stM stM' d heq
      have hsM : stM.backlog[a.storyIdx]? = st1.backlog[a.storyIdx]? :=
        hmains a (List.mem_cons_self _ _)
      have hmonoStep : StatusMonotone stM stM' := by
        refine progressOneHour_monotone a.capIdx a.storyIdx stM capA stM' d
          hcapAM heq ?_
        intro s hs
        rw [hsM] at hs
        exact heldFit_status_le st1 a.capIdx capA (hg1.2 a.capIdx capA hcapA)
          a.storyIdx honA s hs
      have hnd2 : (a.capIdx :: rest'.map (fun a0 => a0.capIdx)).Nodup := by
        have := (List.nodup_append.mp hnd).2.1
        simpa using this
      have hndhead : a.capIdx ∉ rest'.map (fun a0 => a0.capIdx) :=
        (List.nodup_cons.mp hnd2).1
      have hndall' : (((ds0 ++ [(a, d)]).map (fun p => p.1.capIdx)) ++
          rest'.map (fun a0 => a0.capIdx)).Nodup := by
        simp only [List.map_append, List.map_cons, List.map_nil,
          List.singleton_append, List.append_assoc]
        simpa using hnd
      have hmains' : ∀ a' ∈ rest',
          stM'.backlog[a'.storyIdx]? = st1.backlog[a'.storyIdx]? := by
        intro a' ha'
        obtain ⟨cap', hcap', hon'⟩ := hlink a' (List.mem_cons_of_mem _ ha')
        have hne : a'.capIdx ≠ a.capIdx := fun hcc =>
          hndhead (hcc ▸ List.mem_map_of_mem _ ha')
        obtain ⟨s', hs'1, hfacts⟩ := hg1.2 a'.capIdx cap' hcap' a'.storyIdx hon'
        have hsM' : stM.backlog[a'.storyIdx]? = some s' := by
          rw [hmains a' (List.mem_cons_of_mem _ ha')]
          exact hs'1
        rw [progressOneHour_story_untouched st1 stM stM' hg1.1 hcaps a.capIdx
          a.storyIdx capA d hcapA honA heq a'.capIdx cap' hcap' hne a'.storyIdx
          hon' s' hsM' hfacts]
        exact hmains a' (List.mem_cons_of_mem _ ha')
      have hready' : ∀ (c : Nat) (cap : Capability), st1.caps[c]? = some cap →
          (∀ a' ∈ rest', a'.capIdx ≠ c) →
          ((∃ p ∈ ds0 ++ [(a, d)], p.1.capIdx = c ∧ p.2 = true) ∨
            HeldFit stM' c cap) := by
        intro c cap hc hrest
        by_cases hca : c = a.capIdx
        · subst hca
          rw [hcapA] at hc
          injection hc with hce
          subst hce
          cases hd : d with
          | true =>
            left
            exact ⟨(a, true), List.mem_append.mpr (Or.inr (by simp)), rfl, rfl⟩
          | false =>
            right
            intro i hon
            rw [honA] at hon
            injection hon with hie
            subst hie
            obtain ⟨s, s', hs, hp, hs'⟩ :=
              progressOneHour_main a.capIdx a.storyIdx stM capA stM' false
                hcapAM (hd ▸ heq)
            obtain ⟨s0, hs0, hfacts⟩ := hg1.2 a.capIdx capA hcapA a.storyIdx honA
            have hseq : s0 = s := by
              have hx : stM.backlog[a.storyIdx]? = some s0 := by
                rw [hsM]
                exact hs0
              rw [hs] at hx
              injection hx with he
              exact he.symm
            subst hseq
            refine ⟨s', hs', ?_⟩
            rcases hfacts with ⟨hcr, hstat, hass⟩ | ⟨hcr, hstat, hass⟩ | ⟨hcr, hdis⟩
            · obtain ⟨t, t', ht, ht', he1, he2⟩ := progressOneHour_done_false
                a.capIdx a.storyIdx stM capA stM' false hcapAM (hd ▸ heq) rfl
                (by rw [hcr]; exact fun hcx => Role.noConfusion hcx)
              rw [hs] at ht
              injection ht with hte
              subst hte
              rw [hs'] at ht'
              injection ht' with hte'
              subst hte'
              exact Or.inl ⟨hcr, by rw [he1, hstat], by rw [he2, hass]⟩
            · obtain ⟨t, t', ht, ht', he1, he2⟩ := progressOneHour_done_false
                a.capIdx a.storyIdx stM capA stM' false hcapAM (hd ▸ heq) rfl
                (by rw [hcr]; exact fun hcx => Role.noConfusion hcx)
              rw [hs] at ht
              injection ht with hte
              subst hte
              rw [hs'] at ht'
              injection ht' with hte'
              subst hte'
              exact Or.inr (Or.inl ⟨hcr, by rw [he1, hstat], by rw [he2, hass]⟩)
            · rcases progress_effect _ _ _ _ hp with ⟨he1, he2⟩ | ⟨he1, he2⟩
              · rcases hdis with ⟨hstat, hass⟩ | hstat
                · exact Or.inr (Or.inr ⟨hcr,
                    Or.inl ⟨by rw [he1, hstat], by rw [he2, hass]⟩⟩)
                · exact Or.inr (Or.inr ⟨hcr, Or.inr (by rw [he1, hstat])⟩)
              · refine Or.inr (Or.inr ⟨hcr, Or.inr ?_⟩)
                rw [he1, nextStatus_eq_roleTarget, hcr]
                rfl
        · have hrestall : ∀ a' ∈ (a :: rest'), a'.capIdx ≠ c := by
            intro a' ha'
            rcases List.mem_cons.mp ha' with heq' | hm
            · subst heq'
              exact fun hcc => hca hcc.symm
            · exact hrest a' hm
          rcases hready c cap hc hrestall with hdone | hfit
          · left
            obtain ⟨p, hp, hpe⟩ := hdone
            exact ⟨p, List.mem_append.mpr (Or.inl hp), hpe⟩
          · right
            intro i hon
            obtain ⟨s, hsM2, hfacts⟩ := hfit i hon
            rw [progressOneHour_story_untouched st1 stM stM' hg1.1 hcaps a.capIdx
              a.storyIdx capA d hcapA honA heq c cap hc hca i hon s hsM2 hfacts]
            exact ⟨s, hsM2, hfacts⟩
      have hds0' : ∀ p ∈ ds0 ++ [(a, d)], ∃ cap : Capability,
          st1.caps[p.1.capIdx]? = some cap ∧ cap.onStory = some p.1.storyIdx := by
        intro p hp
        rcases List.mem_append.mp hp with h0 | h1
        · exact hds0 p h0
        · have hpe : p = (a, d) := by simpa using h1
          subst hpe
          exact ⟨capA, hcapA, honA⟩
      exact ih (ds0 ++ [(a, d)]) stM' out h (hfcaps.trans hcaps)
        (hfsys.trans hsys) (fun a' ha' => hlink a' (List.mem_cons_of_mem _ ha'))
        hndall' hmains' hready' hds0' (statusMonotone_trans hmono hmonoStep)

/-- Complete description of a successful `jobDone`. -/
theorem jobDone_spec (capIdx : Nat) (st st' : SimState) (cap : Capability)
    (hcap : st.caps[capIdx]? = some cap) (h : jobDone capIdx st = .ok st') :
    ∃ (m : MemberOfTechnicalStaff) (sys' : System),
      st.motss[cap.motsIdx]? = some m ∧
      releaseResources cap.role m.name st.system = .ok sys' ∧
      st' = { backlog := st.backlog,
              caps := modifyAt st.caps capIdx (fun c => { c with onStory := none }),
              motss := modifyAt st.motss cap.motsIdx
                (fun mm => { mm with busy := none }),
              system := sys' } := by
  unfold jobDone at h
  split at h
  · rename_i hnone
    rw [hcap] at hnone
    cases hnone
  · rename_i cap0 hcap0
    rw [hcap] at hcap0
    injection hcap0 with hce
    subst hce
    split at h
    · cases h
    · rename_i m hm
      split at h
      · cases h
      · rename_i sys' hres
        cases h
        exact ⟨m, sys', hm, hres, rfl⟩

/-- The release phase restores the hour-boundary invariant: every
capability flagged done is released, every other already fits, and the
backlog is untouched. -/
theorem releaseAssignments_master :
    ∀ (ds : List (HourAssignment × Bool)) (st : SimState) (st' : SimState),
      releaseAssignments ds st = .ok st' →
      CapsGood st →
      (∀ p ∈ ds, ∃ cap : Capability, st.caps[p.1.capIdx]? = some cap ∧
        cap.onStory = some p.1.storyIdx) →
      ((ds.map (fun p => p.1.capIdx)).Nodup) →
      (∀ (c : Nat) (cap : Capability), st.caps[c]? = some cap →
        ((∃ p ∈ ds, p.1.capIdx = c ∧ p.2 = true) ∨ HeldFit st c cap)) →
      GoodState st' ∧ st'.backlog = st.backlog := by
  intro ds
  induction ds with
  | nil =>
    intro st st' h hcg hlink hnd hready
    cases h
    refine ⟨⟨hcg, ?_⟩, rfl⟩
    intro c cap hc
    rcases hready c cap hc with ⟨p, hp, -⟩ | hfit
    · exact absurd hp (List.not_mem_nil p)
    · exact hfit
  | cons p rest ih =>
    intro st st' h hcg hlink hnd hready
    rw [releaseAssignments] at h
    split at h
    · cases h
    · rename_i st1 heq
      unfold endOfHour at heq
      have hndrest : (rest.map (fun p0 => p0.1.capIdx)).Nodup :=
        (List.nodup_cons.mp (by simpa using hnd)).2
      have hndhead : p.1.capIdx ∉ rest.map (fun p0 => p0.1.capIdx) :=
        (List.nodup_cons.mp (by simpa using hnd)).1
      by_cases hd : p.2 = true
      · -- this capability is released
        rw [if_pos hd] at heq
        obtain ⟨cap, hcap, hon⟩ := hlink p (List.mem_cons_self _ _)
        obtain ⟨m, sys', hm, hres, hst1⟩ :=
          jobDone_spec p.1.capIdx st st1 cap hcap heq
        have hbl1 : st1.backlog = st.backlog := by
          rw [hst1]
        have hsys1 : st1.system = sys' := by
          rw [hst1]
        have hcaps1self : st1.caps[p.1.capIdx]? =
            some { cap with onStory := none } := by
          rw [hst1]
          exact getElem?_modifyAt_self _ _ _ _ hcap
        have hcaps1other : ∀ c : Nat, c ≠ p.1.capIdx →
            st1.caps[c]? = st.caps[c]? := by
          intro c hc
          rw [hst1]
          exact getElem?_modifyAt_ne _ _ _ _ (fun he => hc he.symm)
        have hcg' : CapsGood st1 := by
          refine ⟨?_, ?_, ?_⟩
          · -- ops_locked
            intro c cap0 hc0 hrole hons
            by_cases hcc : c = p.1.capIdx
            · subst hcc
              rw [hcaps1self] at hc0
              injection hc0 with hce
              subst hce
              simp at hons
            · rw [hcaps1other c hcc] at hc0
              have hlock : st.system.available = false :=
                hcg.ops_locked c cap0 hc0 hrole hons
              rw [hsys1]
              cases hr : cap.role with
              | ops =>
                exact absurd (hcg.single_ops c p.1.capIdx cap0 cap hc0 hcap
                  hrole hr hons (by simp [hon])) hcc
              | dev =>
                have hx := (releaseResources_available cap.role m.name st.system
                  sys' hres).2 (by rw [hr]; exact fun hcx => Role.noConfusion hcx)
                rw [hx, hlock]
              | qa =>
                have hx := (releaseResources_available cap.role m.name st.system
                  sys' hres).2 (by rw [hr]; exact fun hcx => Role.noConfusion hcx)
                rw [hx, hlock]
          · -- distinct_stories
            intro c1 c2 cap1 cap2 i hne hc1 hc2 hon1 hon2
            by_cases hc1e : c1 = p.1.capIdx
            · subst hc1e
              rw [hcaps1self] at hc1
              injection hc1 with hce
              subst hce
              simp at hon1
            · by_cases hc2e : c2 = p.1.capIdx
              · subst hc2e
                rw [hcaps1self] at hc2
                injection hc2 with hce
                subst hce
                simp at hon2
              · rw [hcaps1other c1 hc1e] at hc1
                rw [hcaps1other c2 hc2e] at hc2
                exact hcg.distinct_stories c1 c2 cap1 cap2 i hne hc1 hc2 hon1 hon2
          · -- single_ops
            intro c1 c2 cap1 cap2 hc1 hc2 hr1 hr2 hons1 hons2
            by_cases hc1e : c1 = p.1.capIdx
            · subst hc1e
              rw [hcaps1self] at hc1
              injection hc1 with hce
              subst hce
              simp at hons1
            · by_cases hc2e : c2 = p.1.capIdx
              · subst hc2e
                rw [hcaps1self] at hc2
                injection hc2 with hce
                subst hce
                simp at hons2
              · rw [hcaps1other c1 hc1e] at hc1
                rw [hcaps1other c2 hc2e] at hc2
                exact hcg.single_ops c1 c2 cap1 cap2 hc1 hc2 hr1 hr2 hons1 hons2
        have hlink' : ∀ p0 ∈ rest, ∃ cap0 : Capability,
            st1.caps[p0.1.capIdx]? = some cap0 ∧
            cap0.onStory = some p0.1.storyIdx := by
          intro p0 hp0
          obtain ⟨cap0, hc0, hon0⟩ := hlink p0 (List.mem_cons_of_mem _ hp0)
          have hne : p0.1.capIdx ≠ p.1.capIdx := fun hcc =>
            hndhead (hcc ▸ List.mem_map_of_mem _ hp0)
          refine ⟨cap0, ?_, hon0⟩
          rw [hcaps1other _ hne]
          exact hc0
        have hready' : ∀ (c : Nat) (cap0 : Capability),
            st1.caps[c]? = some cap0 →
            ((∃ p0 ∈ rest, p0.1.capIdx = c ∧ p0.2 = true) ∨
              HeldFit st1 c cap0) := by
          intro c cap0 hc0
          by_cases hcc : c = p.1.capIdx
          · subst hcc
            rw [hcaps1self] at hc0
            injection hc0 with hce
            subst hce
            right
            intro i hi
            simp at hi
          · rw [hcaps1other c hcc] at hc0
            rcases hready c cap0 hc0 with ⟨p0, hp0, hpe, hpt⟩ | hfit
            · rcases List.mem_cons.mp hp0 with heq0 | hm0
              · exfalso
                subst heq0
                exact hcc hpe.symm
              · exact Or.inl ⟨p0, hm0, hpe, hpt⟩
            · right
              intro i hi
              obtain ⟨s, hs, hfacts⟩ := hfit i hi
              refine ⟨s, ?_, hfacts⟩
              rw [hbl1]
              exact hs
        obtain ⟨hgood, hbl⟩ := ih _ _ h hcg' hlink' hndrest hready'
        refine ⟨hgood, ?_⟩
        rw [hbl, hbl1]
      · -- not done: nothing happens
        rw [if_neg hd] at heq
        cases heq
        refine ih _ _ h hcg (fun p0 hp0 => hlink p0 (List.mem_cons_of_mem _ hp0))
          hndrest ?_
        intro c cap hc
        rcases hready c cap hc with ⟨p0, hp0, hpe, hpt⟩ | hfit
        · rcases List.mem_cons.mp hp0 with heq0 | hm0
          · exfalso
            subst heq0
            exact hd hpt
          · exact Or.inl ⟨p0, hm0, hpe, hpt⟩
        · exact Or.inr hfit

/-- The structural invariant only reads capabilities and the environment. -/
theorem capsGood_transfer (st st' : SimState) (hcaps : st'.caps = st.caps)
    (hsys : st'.system = st.system) (h : CapsGood st) : CapsGood st' := by
  refine ⟨?_, ?_, ?_⟩
  · intro c cap hc hrole hons
    rw [hsys]
    rw [hcaps] at hc
    exact h.ops_locked c cap hc hrole hons
  · intro c1 c2 cap1 cap2 i hne hc1 hc2 hon1 hon2
    rw [hcaps] at hc1 hc2
    exact h.distinct_stories c1 c2 cap1 cap2 i hne hc1 hc2 hon1 hon2
  · intro c1 c2 cap1 cap2 hc1 hc2 hr1 hr2 hons1 hons2
    rw [hcaps] at hc1 hc2
    exact h.single_ops c1 c2 cap1 cap2 hc1 hc2 hr1 hr2 hons1 hons2

/-- One simulated hour preserves the hour-boundary invariant and never
decreases any story's lifecycle position. -/
theorem scrumulateOneHour_good (dow : Nat) (st : SimState) (pp : Bool)
    (st' : SimState) (hg : GoodState st)
    (h : scrumulateOneHour dow st = .ok (pp, st')) :
    GoodState st' ∧ StatusMonotone st st' := by
  unfold scrumulateOneHour at h
  split at h
  · cases h
  · rename_i asgns pp1 st1 heq1
    split at h
    · cases h
    · rename_i ds st2 heq2
      split at h
      · cases h
      · rename_i st3 heq3
        cases h
        -- pick-up phase
        obtain ⟨hg1, hlink1, hnd1, hpres1⟩ := pickUpList_good dow
          (List.range st.caps.length) [] false st (asgns, pp, st1) heq1 hg
          (fun a ha => absurd ha (List.not_mem_nil a))
          (by simpa using List.nodup_range st.caps.length)
        -- progress phase
        obtain ⟨hcaps2, hsys2, hmono2, hready2, hlink2, hnd2⟩ :=
          progressAssignments_master st1 hg1 asgns [] st1 (ds, st2) heq2 rfl rfl
            hlink1 (by simpa using hnd1) (fun a ha => rfl)
            (fun c cap hc _ => Or.inr (hg1.2 c cap hc))
            (fun p hp => absurd hp (List.not_mem_nil p))
            (statusMonotone_refl st1)
        -- release phase
        obtain ⟨hg3, hbl3⟩ := releaseAssignments_master ds st2 st' heq3
          (capsGood_transfer st1 st2 hcaps2 hsys2 hg1.1)
          (fun p hp => by
            obtain ⟨cap, hc, hon⟩ := hlink2 p hp
            refine ⟨cap, ?_, hon⟩
            rw [hcaps2]
            exact hc)
          hnd2
          (fun c cap hc => hready2 c cap (by rw [← hcaps2]; exact hc))
        refine ⟨hg3, ?_⟩
        have hm12 : StatusMonotone st st2 :=
          statusMonotone_trans (preservesStories_statusMonotone hpres1) hmono2
        refine ⟨by rw [hbl3]; exact hm12.1, ?_⟩
        intro j s s' hs hs'
        rw [hbl3] at hs'
        exact hm12.2 j s s' hs hs'

/-- A run of hours preserves the invariant and is lifecycle-monotone. -/
theorem runHours_good :
    ∀ (dows : List Nat) (st st' : SimState), GoodState st →
      runHours dows st = .ok st' →
      GoodState st' ∧ StatusMonotone st st' := by
  intro dows
  induction dows with
  | nil =>
    intro st st' hg h
    cases h
    exact ⟨hg, statusMonotone_refl st⟩
  | cons d rest ih =>
    intro st st' hg h
    rw [runHours] at h
    split at h
    · cases h
    · rename_i pp st1 heq
      obtain ⟨hg1, hm1⟩ := scrumulateOneHour_good d st pp st1 hg heq
      obtain ⟨hg', hm'⟩ := ih st1 st' hg1 h
      exact ⟨hg', statusMonotone_trans hm1 hm'⟩

/-- A fresh team (no capability on a story) satisfies the hour-boundary
invariant. -/
theorem noHoldings_good (st : SimState) (h : NoHoldings st) : GoodState st := by
  have hnone : ∀ (c : Nat) (cap : Capability), st.caps[c]? = some cap →
      cap.onStory = none := by
    intro c cap hc
    exact h cap (List.getElem?_mem hc)
  refine ⟨⟨?_, ?_, ?_⟩, ?_⟩
  · intro c cap hc hrole hons
    rw [hnone c cap hc] at hons
    cases hons
  · intro c1 c2 cap1 cap2 i hne hc1 hc2 hon1 hon2
    rw [hnone c1 cap1 hc1] at hon1
    cases hon1
  · intro c1 c2 cap1 cap2 hc1 hc2 hr1 hr2 hons1 hons2
    rw [hnone c1 cap1 hc1] at hons1
    cases hons1
  · intro c cap hc i hon
    rw [hnone c cap hc] at hon
    cases hon

/-- C10.  Every work item's status only moves forward along
active → resolved → deployed → closed and never regresses.  Each role's
`nextStatus` is a constant one step past its accepted status; across
*every hour* of any run of hours starting from a team with no held stories,
every story's position in the lifecycle order is non-decreasing from the
state before the hour to the state after it; and consequently it is
non-decreasing from the start of the run to its end. -/
theorem claim_C10_lifecycle_monotone :
    (∀ (r : Role) (x : String), nextStatus r x = roleTarget r ∧
      statusIdx (roleTarget r) = statusIdx (acceptSrc r) + 1) ∧
    (∀ (dows : List Nat) (dow : Nat) (st stMid : SimState)
      (r : Bool × SimState), NoHoldings st →
      runHours dows st = .ok stMid →
      scrumulateOneHour dow stMid = .ok r →
      ∀ (j : Nat) (s s' : UserStory), stMid.backlog[j]? = some s →
        r.2.backlog[j]? = some s' →
        statusIdx s.status ≤ statusIdx s'.status) ∧
    (∀ (dows : List Nat) (st st' : SimState), NoHoldings st →
      runHours dows st = .ok st' →
      ∀ (j : Nat) (s s' : UserStory), st.backlog[j]? = some s →
        st'.backlog[j]? = some s' → statusIdx s.status ≤ statusIdx s'.status) := by
  refine ⟨?_, ?_, ?_⟩
  · intro r x
    refine ⟨nextStatus_eq_roleTarget r x, ?_⟩
    cases r <;> rfl
  · intro dows dow st stMid r hnh hrun hhour j s s' hs hs'
    have hgMid : GoodState stMid :=
      (runHours_good dows st stMid (noHoldings_good st hnh) hrun).1
    exact (scrumulateOneHour_good dow stMid r.1 r.2 hgMid hhour).2.2 j s s' hs hs'
  · intro dows st st' hnh h j s s' hs hs'
    exact (runHours_good dows st st' (noHoldings_good st hnh) h).2.2 j s s' hs hs'

/-- Witness for C10: on the two-developer fixture, the hour after a
one-hour prefix of a run does not decrease the first story's lifecycle
position. -/
theorem claim_C10_lifecycle_monotone_witness :
    NoHoldings twoDevState ∧
    ∃ (stMid : SimState) (r : Bool × SimState),
      runHours [1] twoDevState = .ok stMid ∧
      scrumulateOneHour 2 stMid = .ok r ∧
      (∀ (s s' : UserStory), stMid.backlog[0]? = some s →
        r.2.backlog[0]? = some s' →
        statusIdx s.status ≤ statusIdx s'.status) ∧
      (∀ (s s' : UserStory), twoDevState.backlog[0]? = some s →
        stMid.backlog[0]? = some s' →
        statusIdx s.status ≤ statusIdx s'.status) := by
  have hnh : NoHoldings twoDevState := by
    intro c hc
    rcases hc with _ | ⟨_, hc2⟩
    · rfl
    · rcases hc2 with _ | ⟨_, hc3⟩
      · rfl
      · cases hc3
  refine ⟨hnh, ?_⟩
  refine ⟨_, _, rfl, rfl, ?_, ?_⟩
  · intro s s' hs hs'
    exact claim_C10_lifecycle_monotone.2.1 [1] 2 twoDevState _ _ hnh rfl rfl
      0 s s' hs hs'
  · intro s s' hs hs'
    exact claim_C10_lifecycle_monotone.2.2 [1] twoDevState _ hnh rfl 0 s s' hs hs'
